import Mathlib

/-!
Verification of the Telegram MarkdownV2 helper module (`markdown-v2.js`):
a shallow embedding of `processMarkdownV2Safe` and `chunkForTelegram`
over `List Char`, together with theorems checking the specification's
claims about them.

Strings are modelled as `List Char`; JavaScript numbers used as lengths
are modelled as `Int` where the sign matters.  The one fallible
operation in the source — building a dynamic regular expression
`new RegExp('.{1,' + maxLen + '}')`, which throws a `SyntaxError`
when `maxLen = 0` — is modelled with `Except Unit`.
-/

set_option maxHeartbeats 1000000

abbrev Str := List Char

def MAX_TELEGRAM : Nat := 4096

def SAFE_BUDGET : Nat := 4000

/-- JavaScript line terminators: the characters `.` does NOT match in a
regex without the `s` flag (`\n` = 10, `\r` = 13, U+2028, U+2029). -/
def isLineTerm (c : Char) : Bool :=
  c.toNat = 10 || c.toNat = 13 || c.toNat = 0x2028 || c.toNat = 0x2029

/-- The JavaScript `\s` character class (WhiteSpace ∪ LineTerminator):
space, tab, `\n`, `\v`, `\f`, `\r`, NBSP, OGHAM, the U+2000–U+200A
range, U+2028, U+2029, NNBSP, MMSP, IDEOGRAPHIC SPACE and the BOM.
Used by `split(/\s+/)`, the sentence separator and `String.trim`. -/
def isWs (c : Char) : Bool :=
  c.toNat = 32 || c.toNat = 9 || c.toNat = 10 || c.toNat = 11 || c.toNat = 12 || c.toNat = 13 ||
  c.toNat = 0xa0 || c.toNat = 0x1680 ||
  (decide (0x2000 ≤ c.toNat) && decide (c.toNat ≤ 0x200a)) ||
  c.toNat = 0x2028 || c.toNat = 0x2029 ||
  c.toNat = 0x202f || c.toNat = 0x205f || c.toNat = 0x3000 || c.toNat = 0xfeff

/-- Sentence-final punctuation of the sentence-splitting regex
`/(?<=[.!?…])\s+(?=[^\s])/u` (`…` is U+2026). -/
def isPunctEnd (c : Char) : Bool :=
  c.toNat = 46 || c.toNat = 33 || c.toNat = 63 || c.toNat = 0x2026

/-- `text.split(/\\n{2,}/)`: split on maximal runs of two or more
newlines; empty pieces at the edges are kept, as in JavaScript.
`inSep` records that we are inside a separator run whose first two
newlines have already been consumed. -/
def paraGo : Bool → Str → List Str
  | _, [] => [[]]
  | true, c :: rest =>
      if c = '\n' then paraGo true rest
      else
        match paraGo false rest with
        | [] => [[c]]
        | p :: ps => (c :: p) :: ps
  | false, '\n' :: '\n' :: rest2 => [] :: paraGo true rest2
  | false, c :: rest =>
      match paraGo false rest with
      | [] => [[c]]
      | p :: ps => (c :: p) :: ps

def splitParas (s : Str) : List Str := paraGo false s

/-- `p.split(/(?<=[.!?…])\s+(?=[^\s])/u)`: a separator is a maximal
whitespace run preceded by sentence punctuation and followed by a
non-whitespace character.  `inSep` records that we are consuming a
separator run already validated by the lookahead; `prevP` records
whether the previous character was sentence punctuation. -/
def sentGo : Bool → Bool → Str → List Str
  | _, _, [] => [[]]
  | inSep, prevP, c :: rest =>
      if inSep && isWs c then sentGo true false rest
      else if !inSep && prevP && isWs c && !(((c :: rest).dropWhile (fun x => isWs x)).isEmpty) then
        [] :: sentGo true false rest
      else
        match sentGo false (isPunctEnd c) rest with
        | [] => [[c]]
        | p :: ps => (c :: p) :: ps

def splitSentences (p : Str) : List Str := sentGo false false p

/-- `s.split(/\s+/)`: split on maximal whitespace runs; leading or
trailing whitespace yields empty edge pieces, as in JavaScript. -/
def splitWords : Str → List Str
  | [] => [[]]
  | c :: rest =>
      if isWs c then
        match rest with
        | [] => [[], []]
        | d :: _ =>
          if isWs d then splitWords rest else [] :: splitWords rest
      else
        match splitWords rest with
        | [] => [[c]]
        | p :: ps => (c :: p) :: ps

/-- One greedy pass of `.{1,n}` matching: `k` is the remaining capacity
of the current piece and `cur` the current piece, reversed. -/
def chunksGo (n : Nat) : Str → Nat → Str → List Str
  | [], _, cur => if cur.isEmpty then [] else [cur.reverse]
  | c :: rest, k, cur =>
      if isLineTerm c then
        (if cur.isEmpty then [] else [cur.reverse]) ++ chunksGo n rest n []
      else
        match k with
        | 0 => cur.reverse :: chunksGo n rest (n - 1) [c]
        | k + 1 => chunksGo n rest k (c :: cur)

/-- `s.match(new RegExp('.\x7b1,' + n + '\x7d', 'g')) || []` for a
positive `n`: greedy pieces of up to `n` characters, where `.` skips
line terminators (so they are dropped and never appear in a piece). -/
def chunksOfNonNl (n : Nat) (s : Str) : List Str := chunksGo n s n []

/-- Decimal digits of a natural number (structural via fuel), as
produced by JavaScript number-to-string conversion. -/
def digitsGo : Nat → Nat → Str
  | 0, _ => []
  | fuel + 1, n =>
      if n < 10 then [Char.ofNat (48 + n)]
      else digitsGo fuel (n / 10) ++ [Char.ofNat (48 + n % 10)]

def natDigits (n : Nat) : Str := digitsGo (n + 1) n

/-- `String(i)` for an integer. -/
def intStr (i : Int) : Str :=
  if i < 0 then '-' :: natDigits i.natAbs else natDigits i.natAbs

/-- The literal character sequence `\x7b1,` ++ String(maxLen) ++ `\x7d`.
When `maxLen` is negative, `\x7b1,-k\x7d` is not a valid quantifier and
Annex B treats the braces as literal pattern characters. -/
def negLit (maxLen : Int) : Str :=
  Char.ofNat 123 :: '1' :: ',' :: (intStr maxLen ++ [Char.ofNat 125])

/-- Global matching of the Annex-B literal pattern `.\x7b1,-k\x7d`: one
non-line-terminator character followed by the literal text. -/
def negPatMatches (lit : Str) : Str → List Str
  | [] => []
  | c :: rest =>
      if !(isLineTerm c) && lit.isPrefixOf rest then
        (c :: lit) :: negPatMatches lit (rest.drop lit.length)
      else negPatMatches lit rest
  termination_by s => s.length
  decreasing_by
  · simp only [List.length_drop, List.length_cons]; omega
  · simp

/-- `w.match(new RegExp('.{1,' + maxLen + '}', 'g')) || []`.
For `maxLen = 0` the quantifier `{1,0}` has its bounds out of order and
`new RegExp` throws a `SyntaxError`. -/
def hardSliceJS (maxLen : Int) (w : Str) : Except Unit (List Str) :=
  if maxLen = 0 then .error ()
  else if maxLen < 0 then .ok (negPatMatches (negLit maxLen) w)
  else .ok (chunksOfNonNl maxLen.toNat w)

/-- Word-level packing loop (level 3 of `chunkForTelegram`), with the
hard-slice fallback (level 4).  State: accumulated `parts` and the
current word buffer `wBuf`. -/
def wordLoop (maxLen : Int) : List Str → List Str → Str → Except Unit (List Str × Str)
  | [], parts, wBuf => .ok (parts, wBuf)
  | w :: ws, parts, wBuf =>
      let cand := if wBuf.isEmpty then w else wBuf ++ ' ' :: w
      if (cand.length : Int) ≤ maxLen then wordLoop maxLen ws parts cand
      else if (w.length : Int) ≤ maxLen then
        wordLoop maxLen ws (if wBuf.isEmpty then parts else parts ++ [wBuf]) w
      else do
        let parts1 := if wBuf.isEmpty then parts else parts ++ [wBuf]
        let pieces ← hardSliceJS maxLen w
        wordLoop maxLen ws (parts1 ++ pieces) []

/-- Sentence-level packing loop (level 2 of `chunkForTelegram`).  An
over-budget sentence is word-split; the word buffer left over from the
word loop is pushed before moving to the next sentence. -/
def sentLoop (maxLen : Int) : List Str → List Str → Str → Except Unit (List Str × Str)
  | [], parts, sBuf => .ok (parts, sBuf)
  | s :: ss, parts, sBuf =>
      let cand := if sBuf.isEmpty then s else sBuf ++ ' ' :: s
      if (cand.length : Int) ≤ maxLen then sentLoop maxLen ss parts cand
      else if (s.length : Int) ≤ maxLen then
        sentLoop maxLen ss (if sBuf.isEmpty then parts else parts ++ [sBuf]) s
      else do
        let parts1 := if sBuf.isEmpty then parts else parts ++ [sBuf]
        let (parts2, wBuf) ← wordLoop maxLen (splitWords s) parts1 []
        let parts3 := if wBuf.isEmpty then parts2 else parts2 ++ [wBuf]
        sentLoop maxLen ss parts3 []

/-- Paragraph-level packing loop (level 1 of `chunkForTelegram`).  An
over-budget paragraph is sentence-split; the sentence buffer left over
is pushed before moving to the next paragraph. -/
def paraLoop (maxLen : Int) : List Str → List Str → Str → Except Unit (List Str × Str)
  | [], parts, buffer => .ok (parts, buffer)
  | p :: ps, parts, buffer =>
      let cand := if buffer.isEmpty then p else buffer ++ '\n' :: '\n' :: p
      if (cand.length : Int) ≤ maxLen then paraLoop maxLen ps parts cand
      else if (p.length : Int) ≤ maxLen then
        paraLoop maxLen ps (if buffer.isEmpty then parts else parts ++ [buffer]) p
      else do
        let parts1 := if buffer.isEmpty then parts else parts ++ [buffer]
        let (parts2, sBuf) ← sentLoop maxLen (splitSentences p) parts1 []
        let parts3 := if sBuf.isEmpty then parts2 else parts2 ++ [sBuf]
        paraLoop maxLen ps parts3 []

/-- The final safety pass: any chunk over the hard cap `MAX_TELEGRAM`
is re-sliced at `SAFE_BUDGET` width (the regex is `.{1,4000}`, always
valid). -/
def safetyPass (parts : List Str) : List Str :=
  parts.foldr
    (fun part acc =>
      (if part.length ≤ MAX_TELEGRAM then [part] else chunksOfNonNl SAFE_BUDGET part) ++ acc)
    []

/-- `chunkForTelegram(text, maxLen)`.  The early return covers falsy
(empty) text and text that already fits. -/
def chunkForTelegram (text : Str) (maxLen : Int) : Except Unit (List Str) :=
  if text.isEmpty || (text.length : Int) ≤ maxLen then .ok [text]
  else do
    let (parts, buffer) ← paraLoop maxLen (splitParas text) [] []
    let parts1 := if buffer.isEmpty then parts else parts ++ [buffer]
    .ok (safetyPass parts1)

/-! ### Chunker infrastructure lemmas -/

theorem nonLT_of_nonWs {c : Char} (h : isWs c = false) : isLineTerm c = false := by
  unfold isWs at h
  unfold isLineTerm
  simp only [Bool.or_eq_false_iff, Bool.and_eq_false_iff, decide_eq_false_iff_not] at h
  simp only [Bool.or_eq_false_iff, decide_eq_false_iff_not]
  omega

/-- The string has a character that is not a line terminator. -/
def hasNonLT (s : Str) : Prop := ∃ ch ∈ s, isLineTerm ch = false

/-- The string has a character that is not whitespace. -/
def hasNonWs (s : Str) : Prop := ∃ ch ∈ s, isWs ch = false

/-- Some accumulated part has a non-line-terminator character. -/
def partsOk (parts : List Str) : Prop := ∃ p ∈ parts, hasNonLT p

/-! ### The Escaper/Normalizer: `processMarkdownV2Safe`

Each regex-replace stage of the source is embedded as a structural
character scanner that is extensionally equal to the JavaScript regex
engine's global-replace behaviour on that pattern. -/

/-- The MarkdownV2 reserved set `\ _ * [ ] ( ) ~ `` > # + - = | { } . !`
of `escapeMarkdownV2` (character codes 92 95 42 91 93 40 41 126 96 62
35 43 45 61 124 123 125 46 33). -/
def isReservedMd (c : Char) : Bool :=
  c.toNat = 92 || c.toNat = 95 || c.toNat = 42 || c.toNat = 91 || c.toNat = 93 ||
  c.toNat = 40 || c.toNat = 41 || c.toNat = 126 || c.toNat = 96 || c.toNat = 62 ||
  c.toNat = 35 || c.toNat = 43 || c.toNat = 45 || c.toNat = 61 || c.toNat = 124 ||
  c.toNat = 123 || c.toNat = 125 || c.toNat = 46 || c.toNat = 33

/-- `escapeMarkdownV2`: backslash-escape every reserved character
(`String(text).replace(/([\\_*[\]()~`>#+\-=|{}.!])/g, '\\$1')`; falsy
input gives the empty string, which coincides with the `[]` case). -/
def escapeMarkdownV2 : Str → Str
  | [] => []
  | c :: rest => (if isReservedMd c then ['\\', c] else [c]) ++ escapeMarkdownV2 rest

/-- `escapeForUrl`: escape only `)` (41) and `\` (92), per
`String(url).replace(/[)\\]/g, '\\$&')`. -/
def escapeForUrl : Str → Str
  | [] => []
  | c :: rest =>
      (if c.toNat = 41 || c.toNat = 92 then ['\\', c] else [c]) ++ escapeForUrl rest

/-- JavaScript `String.prototype.trim` (strips `\s` on both ends). -/
def trimJS (s : Str) : Str :=
  ((s.dropWhile (fun c => isWs c)).reverse.dropWhile (fun c => isWs c)).reverse

/-- Characters of the `[a-z0-9.-]` class (case-insensitive `i` flag). -/
def isDomA (c : Char) : Bool :=
  (decide (97 ≤ c.toNat) && decide (c.toNat ≤ 122)) ||
  (decide (65 ≤ c.toNat) && decide (c.toNat ≤ 90)) ||
  (decide (48 ≤ c.toNat) && decide (c.toNat ≤ 57)) ||
  c.toNat = 46 || c.toNat = 45

/-- Characters of the `[a-z]` class under the `i` flag. -/
def isAlphaMd (c : Char) : Bool :=
  (decide (97 ≤ c.toNat) && decide (c.toNat ≤ 122)) ||
  (decide (65 ≤ c.toNat) && decide (c.toNat ≤ 90))

/-- First characters `[/:?#]` of the optional tail group. -/
def isDomTailStart (c : Char) : Bool :=
  c.toNat = 47 || c.toNat = 58 || c.toNat = 63 || c.toNat = 35

/-- The optional group `([/:?#].*)?$`: empty, or a tail-start character
followed by non-line-terminator characters up to the end. -/
def domTailOk : Str → Bool
  | [] => true
  | d :: r => isDomTailStart d && r.all (fun c => !(isLineTerm c))

/-- The test `/^[a-z0-9.-]+\.[a-z]{2,}([/:?#].*)?$/i.test(raw)`: the
string matches iff some decomposition `A ++ '.' ++ B ++ C` exists with
`A` nonempty over `[a-z0-9.-]`, `B` at least two letters, and `C` the
optional tail. -/
def domainLike (s : Str) : Bool :=
  (List.range s.length).any (fun i =>
    decide (1 ≤ i) && (s.take i).all isDomA &&
    (match s.drop i with
     | c :: rest1 =>
        c.toNat = 46 &&
        (List.range (rest1.length + 1)).any (fun j =>
          decide (2 ≤ j) && decide (j ≤ rest1.length) &&
          (rest1.take j).all isAlphaMd && domTailOk (rest1.drop j))
     | [] => false))

/-- `normalizeAndValidateUrl`, parameterized by the platform URL parser
`parse` (modelling `new URL(u).toString()`, `none` when the constructor
throws): try the trimmed string as an absolute URL, retry with an
`https://` prefix when it looks domain-like, otherwise `null`. -/
def normalizeAndValidateUrl (parse : Str → Option Str) (url : Str) : Option Str :=
  let raw := trimJS url
  match parse raw with
  | some u => some u
  | none =>
      if domainLike raw then
        match parse ("https://".data ++ raw) with
        | some u2 => some u2
        | none => none
      else none

/-- Modelled from the spec: the platform WHATWG URL parser (`new URL`
with `toString`) used by `normalizeAndValidateUrl` is not part of this
repository.  This model accepts `http://` and `https://` URLs whose
authority is nonempty and whitespace-free, and serializes by inserting
the `/` of an empty path after the authority, as the real parser does;
everything else fails (`none`).  It is only ever applied to concrete
URLs on which it agrees with the real parser. -/
def urlModel (raw : Str) : Option Str :=
  let after : Str → Option Str := fun scheme =>
    let rest := raw.drop scheme.length
    let auth := rest.takeWhile (fun c => c.toNat ≠ 47 && c.toNat ≠ 63 && c.toNat ≠ 35)
    let remainder := rest.drop auth.length
    if auth.isEmpty || auth.any (fun c => isWs c) then none
    else some (scheme ++ auth ++
      (if remainder.isEmpty then ['/']
       else if remainder.head? = some '/' then remainder else '/' :: remainder))
  if "http://".data.isPrefixOf raw then after "http://".data
  else if "https://".data.isPrefixOf raw then after "https://".data
  else none

/-- The double-delimiter pass `text.replace(/\*\*([\s\S]*?)\*\*/g, '*$1*')`
(and its `__` twin), as a left-to-right scanner: outside a match it looks
for two consecutive delimiters; inside, the lazy group grows until the
next two consecutive delimiters close it, emitting a single-delimited
body; an unclosed opener is restored literally at the end of input. -/
def dblGo (d : Char) : Option Str → Str → Str
  | none, [] => []
  | some inner, [] => d :: d :: inner.reverse
  | none, [c] => [c]
  | none, c :: c2 :: rest2 =>
      if c = d && c2 = d then dblGo d (some []) rest2
      else c :: dblGo d none (c2 :: rest2)
  | some inner, [c] => d :: d :: (c :: inner).reverse
  | some inner, c :: c2 :: rest2 =>
      if c = d && c2 = d then (d :: inner.reverse ++ [d]) ++ dblGo d none rest2
      else dblGo d (some (c :: inner)) (c2 :: rest2)

/-- `normalizeCommonMd`: `**bold** → *bold*` then `__italic__ → _italic_`. -/
def normalizeCommonMd (s : Str) : Str := dblGo '_' none (dblGo '*' none s)

/-- Scanner state for `normalizeHeadings`: normal text (with an
at-line-start flag), inside a run of leading `#`, swallowing the `\s+`,
or accumulating the title `(.*)`. -/
inductive HeadMode where
  | norm (atStart : Bool)
  | hashes (k : Nat)
  | swallow
  | title (acc : Str)

/-- The `normalizeHeadings` pass
`text.replace(/^(#{1,6})\s+(.*)$/gm, (m,hashes,title) => `*${title.trim()}*`)`
as a scanner: at a line start, up to six `#` followed by whitespace start
a heading; the title runs to the line end and is emitted trimmed inside
single asterisks; failed candidates are restored literally. -/
def headGo : HeadMode → Str → Str
  | .norm _, [] => []
  | .hashes k, [] => List.replicate k '#'
  | .swallow, [] => ['*', '*']
  | .title acc, [] => '*' :: (trimJS acc.reverse ++ ['*'])
  | .norm atStart, c :: rest =>
      if atStart && c = '#' then headGo (.hashes 1) rest
      else c :: headGo (.norm (isLineTerm c)) rest
  | .hashes k, c :: rest =>
      if c = '#' then
        if k < 6 then headGo (.hashes (k + 1)) rest
        else List.replicate (k + 1) '#' ++ headGo (.norm false) rest
      else if isWs c then headGo .swallow rest
      else List.replicate k '#' ++ c :: headGo (.norm false) rest
  | .swallow, c :: rest =>
      if isWs c then headGo .swallow rest
      else headGo (.title [c]) rest
  | .title acc, c :: rest =>
      if isLineTerm c then
        ('*' :: (trimJS acc.reverse ++ ['*'])) ++ c :: headGo (.norm true) rest
      else headGo (.title (c :: acc)) rest

/-- `normalizeHeadings text` (the scanner starts at a line start). -/
def normalizeHeadings (s : Str) : Str := headGo (.norm true) s

/-- The placeholder `⟬L0⟭` / `⟬B0⟭` / `⟬I0⟭` / `⟬S0⟭`:
lenticular bracket, category letter, decimal index, closing bracket. -/
def mkTok (cat : Char) (i : Nat) : Str :=
  '⟬' :: cat :: (natDigits i ++ ['⟭'])

/-- Scanner state for the link pass `/\[([^\]\n]+)\]\(([^)]+)\)/g`:
normal text, inside a label, just after `]` awaiting `(`, or inside a
URL. -/
inductive LinkMode where
  | norm
  | lab (acc : Str)
  | paren (lacc : Str)
  | url (lacc uacc : Str)

/-- The link pass: each match `[label](url)` is replaced by `⟬Li⟭` (and
the rendered link `[escapedLabel](escapedUrl)` is queued) when the URL
validates, and by the escaped label alone when it does not; candidates
that fail to complete are restored literally, re-scanning from the
character that broke them exactly as the regex engine resumes. -/
def linkGo (parse : Str → Option Str) : LinkMode → Nat → Str → Str × List Str
  | .norm, _, [] => ([], [])
  | .lab acc, _, [] => ('[' :: acc.reverse, [])
  | .paren lacc, _, [] => ('[' :: (lacc.reverse ++ [']']), [])
  | .url lacc uacc, _, [] => ('[' :: (lacc.reverse ++ ']' :: '(' :: uacc.reverse), [])
  | .norm, idx, c :: rest =>
      if c = '[' then linkGo parse (.lab []) idx rest
      else
        let (out, fs) := linkGo parse .norm idx rest
        (c :: out, fs)
  | .lab acc, idx, c :: rest =>
      if c = ']' then
        if acc.isEmpty then
          let (out, fs) := linkGo parse .norm idx rest
          ('[' :: ']' :: out, fs)
        else linkGo parse (.paren acc) idx rest
      else if c = '\n' then
        let (out, fs) := linkGo parse .norm idx rest
        ('[' :: (acc.reverse ++ '\n' :: out), fs)
      else linkGo parse (.lab (c :: acc)) idx rest
  | .paren lacc, idx, c :: rest =>
      if c = '(' then linkGo parse (.url lacc []) idx rest
      else if c = '[' then
        let (out, fs) := linkGo parse (.lab []) idx rest
        (('[' :: (lacc.reverse ++ [']'])) ++ out, fs)
      else
        let (out, fs) := linkGo parse .norm idx rest
        (('[' :: (lacc.reverse ++ [']'])) ++ c :: out, fs)
  | .url lacc uacc, idx, c :: rest =>
      if c = ')' then
        if uacc.isEmpty then
          let (out, fs) := linkGo parse .norm idx rest
          (('[' :: (lacc.reverse ++ [']', '(', ')'])) ++ out, fs)
        else
          match normalizeAndValidateUrl parse uacc.reverse with
          | none =>
              let (out, fs) := linkGo parse .norm idx rest
              (escapeMarkdownV2 lacc.reverse ++ out, fs)
          | some u =>
              let frag := '[' :: (escapeMarkdownV2 lacc.reverse ++
                          ']' :: '(' :: (escapeForUrl u ++ [')']))
              let (out, fs) := linkGo parse .norm (idx + 1) rest
              (mkTok 'L' idx ++ out, frag :: fs)
      else linkGo parse (.url lacc (c :: uacc)) idx rest

/-- The bold/italic pass `/\*([\s\S]+?)\*/g` (resp. `_`): each
delimited span with nonempty body becomes `⟬<letter><i>⟭`, and the
delimited escaped body is queued; an unclosed opener is restored
literally. -/
def singleGo (d letter : Char) : Option Str → Nat → Str → Str × List Str
  | none, _, [] => ([], [])
  | some inner, _, [] => (d :: inner.reverse, [])
  | none, idx, c :: rest =>
      if c = d then singleGo d letter (some []) idx rest
      else
        let (out, fs) := singleGo d letter none idx rest
        (c :: out, fs)
  | some inner, idx, c :: rest =>
      if c = d then
        if inner.isEmpty then singleGo d letter (some [c]) idx rest
        else
          let frag := d :: (escapeMarkdownV2 inner.reverse ++ [d])
          let (out, fs) := singleGo d letter none (idx + 1) rest
          (mkTok letter idx ++ out, frag :: fs)
      else singleGo d letter (some (c :: inner)) idx rest

/-- The spoiler pass `/\|\|([\s\S]+?)\|\|/g`: `||body||` with nonempty
lazy body becomes `⟬Si⟭` with the escaped spoiler queued. -/
def spoilGo : Option Str → Nat → Str → Str × List Str
  | none, _, [] => ([], [])
  | some inner, _, [] => ('|' :: '|' :: inner.reverse, [])
  | none, _, [c] => ([c], [])
  | none, idx, c :: c2 :: rest2 =>
      if c = '|' && c2 = '|' then spoilGo (some []) idx rest2
      else
        let r := spoilGo none idx (c2 :: rest2)
        (c :: r.1, r.2)
  | some inner, _, [c] => ('|' :: '|' :: (c :: inner).reverse, [])
  | some inner, idx, c :: c2 :: rest2 =>
      if c = '|' && c2 = '|' then
        if inner.isEmpty then spoilGo (some ['|']) idx (c2 :: rest2)
        else
          let frag := '|' :: '|' :: (escapeMarkdownV2 inner.reverse ++ ['|', '|'])
          let r := spoilGo none (idx + 1) rest2
          (mkTok 'S' idx ++ r.1, frag :: r.2)
      else spoilGo (some (c :: inner)) idx (c2 :: rest2)

/-- ECMAScript `GetSubstitution` for a replacement string with no
capture groups: `$$` is a dollar, `$&` the matched text, a dollar
followed by backtick the text before the match, a dollar followed by
apostrophe the text after the match; anything else is literal. -/
def getSubst (matched pre post : Str) : Str → Str
  | [] => []
  | [c] => [c]
  | c :: c2 :: r2 =>
      if c = '$' then
        if c2 = '$' then '$' :: getSubst matched pre post r2
        else if c2.toNat = 38 then matched ++ getSubst matched pre post r2
        else if c2.toNat = 96 then pre ++ getSubst matched pre post r2
        else if c2.toNat = 39 then post ++ getSubst matched pre post r2
        else c :: getSubst matched pre post (c2 :: r2)
      else c :: getSubst matched pre post (c2 :: r2)

/-- One step of `text.replace(tok, repl)` with a string search value:
only the first occurrence is replaced, and the replacement string goes
through `GetSubstitution`. -/
def replFirstAux (tok repl : Str) : Str → Str → Str
  | preRev, [] => preRev.reverse
  | preRev, c :: rest =>
      if tok.isPrefixOf (c :: rest) then
        preRev.reverse ++ getSubst tok preRev.reverse ((c :: rest).drop tok.length) repl ++
          (c :: rest).drop tok.length
      else replFirstAux tok repl (c :: preRev) rest

/-- `text.replace(tok, repl)` for a plain-string token. -/
def replaceFirst (tok repl s : Str) : Str := replFirstAux tok repl [] s

/-- The restoration loop `placeholders.xs.forEach((md, i) => { text =
text.replace(`⟬X${i}⟭`, md); })`. -/
def restoreGo (letter : Char) : Nat → List Str → Str → Str
  | _, [], t => t
  | i, f :: fs, t => restoreGo letter (i + 1) fs (replaceFirst (mkTok letter i) f t)

/-- The normalization and extraction stages of `processMarkdownV2Safe`,
up to (but not including) the global escape: the working text with all
four placeholder categories extracted, plus the queued fragments. -/
def extractStages (parse : Str → Option Str) (input : Str) :
    Str × List Str × List Str × List Str × List Str :=
  let t2 := normalizeHeadings (normalizeCommonMd input)
  let l := linkGo parse .norm 0 t2
  let b := singleGo '*' 'B' none 0 l.1
  let i := singleGo '_' 'I' none 0 b.1
  let s := spoilGo none 0 i.1
  (s.1, l.2, b.2, i.2, s.2)

/-- The escaped working text (`text = escapeMarkdownV2(text)` at the
point just before placeholder restoration). -/
def escapedWorking (parse : Str → Option Str) (input : Str) : Str :=
  escapeMarkdownV2 (extractStages parse input).1

/-- `processMarkdownV2Safe(inputText)`: falsy input gives the empty
string; otherwise normalize, extract placeholders, escape everything
else, then restore links, bolds, italics and spoilers in that order. -/
def processMarkdownV2Safe (parse : Str → Option Str) (input : Str) : Str :=
  if input.isEmpty then []
  else
    match extractStages parse input with
    | (t6, links, bolds, italics, spoilers) =>
        restoreGo 'S' 0 spoilers (restoreGo 'I' 0 italics (restoreGo 'B' 0 bolds
          (restoreGo 'L' 0 links (escapeMarkdownV2 t6))))

/-- Number of (possibly overlapping) occurrences of `pat` as a
contiguous substring. -/
def countSubstr (pat : Str) : Str → Nat
  | [] => 0
  | c :: rest => (if pat.isPrefixOf (c :: rest) then 1 else 0) + countSubstr pat rest

/-- Decimal digit string back to a number (left fold). -/
def natOfDigits (ds : Str) : Nat :=
  ds.foldl (fun a c => a * 10 + (c.toNat - 48)) 0

/-- Scanner state for the MarkdownV2 safety checker below: plain text,
inside a `*`/`_` span, inside a `||` spoiler, inside a link label, just
after the label awaiting `(`, or inside a link URL.  The `seen` flags
record that the body is nonempty so far. -/
inductive SafeMode where
  | top
  | span (d : Char) (seen : Bool)
  | spoil (seen : Bool)
  | lab (seen : Bool)
  | paren
  | url (seen : Bool)

/-- Modelled from the spec: the checker for the claimed output guarantee
"no unescaped occurrence of any character in the reserved set outside of
the delimiters of recognized markup spans (bold, italic, spoiler,
link)".  Plain text admits backslash-escaped reserved characters and
unescaped non-reserved characters only; `*`, `_`, `||` and
`[label](url)` delimiters open spans whose interiors obey the same rule
(with nonempty bodies), except that a link URL needs escapes only for
`)` and backslash. -/
def safeGo : SafeMode → Str → Bool
  | .top, [] => true
  | .span _ _, [] => false
  | .spoil _, [] => false
  | .lab _, [] => false
  | .paren, [] => false
  | .url _, [] => false
  | .top, c :: rest =>
      if c = '\\' then
        match rest with
        | c2 :: rest2 => isReservedMd c2 && safeGo .top rest2
        | [] => false
      else if c = '*' || c = '_' then safeGo (.span c false) rest
      else if c = '|' then
        match rest with
        | c2 :: rest2 => c2 = '|' && safeGo (.spoil false) rest2
        | [] => false
      else if c = '[' then safeGo (.lab false) rest
      else !(isReservedMd c) && safeGo .top rest
  | .span d seen, c :: rest =>
      if c = '\\' then
        match rest with
        | c2 :: rest2 => isReservedMd c2 && safeGo (.span d true) rest2
        | [] => false
      else if c = d then seen && safeGo .top rest
      else !(isReservedMd c) && safeGo (.span d true) rest
  | .spoil seen, c :: rest =>
      if c = '\\' then
        match rest with
        | c2 :: rest2 => isReservedMd c2 && safeGo (.spoil true) rest2
        | [] => false
      else if c = '|' then
        match rest with
        | c2 :: rest2 => c2 = '|' && seen && safeGo .top rest2
        | [] => false
      else !(isReservedMd c) && safeGo (.spoil true) rest
  | .lab seen, c :: rest =>
      if c = '\\' then
        match rest with
        | c2 :: rest2 => isReservedMd c2 && safeGo (.lab true) rest2
        | [] => false
      else if c = ']' then seen && safeGo .paren rest
      else !(isReservedMd c) && safeGo (.lab true) rest
  | .paren, c :: rest => c = '(' && safeGo (.url false) rest
  | .url seen, c :: rest =>
      if c = '\\' then
        match rest with
        | c2 :: rest2 => (c2.toNat = 41 || c2.toNat = 92) && safeGo (.url true) rest2
        | [] => false
      else if c = ')' then seen && safeGo .top rest
      else safeGo (.url true) rest

/-- Modelled from the spec: a string is Telegram-MarkdownV2-safe when
the whole of it scans from plain-text mode. -/
def safeMdV2 (s : Str) : Bool := safeGo .top s


/-! ### Infrastructure lemmas for the chunker -/

theorem hasNonLT_of_hasNonWs {s : Str} (h : hasNonWs s) : hasNonLT s := by
  obtain ⟨ch, hm, hw⟩ := h
  exact ⟨ch, hm, nonLT_of_nonWs hw⟩

theorem hasNonLT_append_left {s t : Str} (h : hasNonLT s) : hasNonLT (s ++ t) := by
  obtain ⟨ch, hm, hw⟩ := h
  exact ⟨ch, List.mem_append_left _ hm, hw⟩

theorem hasNonLT_append_right {s t : Str} (h : hasNonLT t) : hasNonLT (s ++ t) := by
  obtain ⟨ch, hm, hw⟩ := h
  exact ⟨ch, List.mem_append_right _ hm, hw⟩

theorem hasNonLT_ne_nil {s : Str} (h : hasNonLT s) : s ≠ [] := by
  obtain ⟨ch, hm, _⟩ := h
  exact List.ne_nil_of_mem hm

theorem partsOk_append_left {a b : List Str} (h : partsOk a) : partsOk (a ++ b) := by
  obtain ⟨p, hm, hp⟩ := h
  exact ⟨p, List.mem_append_left _ hm, hp⟩

theorem partsOk_append_right {a b : List Str} (h : partsOk b) : partsOk (a ++ b) := by
  obtain ⟨p, hm, hp⟩ := h
  exact ⟨p, List.mem_append_right _ hm, hp⟩

theorem chunksGo_mem {n : Nat} (hn : 1 ≤ n) {s : Str} : ∀ {k : Nat} {cur piece : Str},
    piece ∈ chunksGo n s k cur → cur.length + k = n →
    (∀ ch ∈ cur, isLineTerm ch = false) →
    piece.length ≤ n ∧ piece ≠ [] ∧ (∀ ch ∈ piece, isLineTerm ch = false) := by
  induction s with
  | nil =>
    intro k cur piece h hk hcur
    simp only [chunksGo] at h
    split at h
    · simp at h
    · next hne =>
      simp only [List.mem_singleton] at h
      subst h
      refine ⟨by simp; omega, ?_, ?_⟩
      · simp only [ne_eq, List.reverse_eq_nil_iff]
        simpa [List.isEmpty_iff] using hne
      · intro ch hm
        exact hcur ch (List.mem_reverse.mp hm)
  | cons c rest ih =>
    intro k cur piece h hk hcur
    simp only [chunksGo] at h
    split at h
    · rcases List.mem_append.mp h with h1 | h1
      · split at h1
        · simp at h1
        · next hne =>
          simp only [List.mem_singleton] at h1
          subst h1
          refine ⟨by simp; omega, ?_, ?_⟩
          · simp only [ne_eq, List.reverse_eq_nil_iff]
            simpa [List.isEmpty_iff] using hne
          · intro ch hm
            exact hcur ch (List.mem_reverse.mp hm)
      · exact ih h1 (by simp [hn]) (by simp)
    · next hclt =>
      match k, h with
      | 0, h =>
        rcases List.mem_cons.mp h with h1 | h1
        · subst h1
          refine ⟨by simp; omega, ?_, ?_⟩
          · simp only [ne_eq, List.reverse_eq_nil_iff]
            intro hc; subst hc; simp at hk; omega
          · intro ch hm
            exact hcur ch (List.mem_reverse.mp hm)
        · refine ih h1 (by simp; omega) ?_
          intro ch hm
          simp only [List.mem_singleton] at hm
          subst hm
          simpa using hclt
      | k + 1, h =>
        refine ih h (by simp at hk ⊢; omega) ?_
        intro ch hm
        rcases List.mem_cons.mp hm with h1 | h1
        · subst h1; simpa using hclt
        · exact hcur ch h1

theorem chunksOfNonNl_mem {n : Nat} (hn : 1 ≤ n) {s piece : Str}
    (h : piece ∈ chunksOfNonNl n s) :
    piece.length ≤ n ∧ piece ≠ [] ∧ (∀ ch ∈ piece, isLineTerm ch = false) :=
  chunksGo_mem hn h (by simp) (by simp)

theorem chunksGo_ne_nil {n : Nat} {s : Str} : ∀ {k : Nat} {cur : Str},
    (hasNonLT s ∨ cur ≠ []) → chunksGo n s k cur ≠ [] := by
  induction s with
  | nil =>
    intro k cur h
    rcases h with h | h
    · obtain ⟨ch, hm, _⟩ := h; simp at hm
    · simp only [chunksGo]
      rw [if_neg (by simpa [List.isEmpty_iff] using h)]
      simp
  | cons c rest ih =>
    intro k cur h
    simp only [chunksGo]
    split
    · next hclt =>
      have hr : hasNonLT rest ∨ cur ≠ [] := by
        rcases h with ⟨ch, hm, hlt⟩ | h
        · rcases List.mem_cons.mp hm with h1 | h1
          · subst h1; rw [hclt] at hlt; exact absurd hlt (by simp)
          · exact Or.inl ⟨ch, h1, hlt⟩
        · exact Or.inr h
      rcases hr with hr | hr
      · intro hab
        exact ih (Or.inl hr) (List.append_eq_nil.mp hab).2
      · rw [if_neg (by simpa [List.isEmpty_iff] using hr)]
        simp
    · match k with
      | 0 => simp
      | k + 1 => exact ih (Or.inr (by simp))

theorem chunksOfNonNl_ne_nil {n : Nat} {s : Str} (h : hasNonLT s) :
    chunksOfNonNl n s ≠ [] :=
  chunksGo_ne_nil (Or.inl h)

theorem safetyPass_len {parts : List Str} {c : Str} (h : c ∈ safetyPass parts) :
    c.length ≤ MAX_TELEGRAM := by
  induction parts with
  | nil => simp [safetyPass] at h
  | cons p ps ih =>
    simp only [safetyPass, List.foldr_cons] at h ih
    rcases List.mem_append.mp h with h1 | h1
    · split at h1
      · next hle => simp only [List.mem_singleton] at h1; subst h1; exact hle
      · next hgt =>
        have hb := (chunksOfNonNl_mem (by norm_num [SAFE_BUDGET]) h1).1
        norm_num [SAFE_BUDGET, MAX_TELEGRAM] at hb ⊢
        omega
    · exact ih h1

theorem safetyPass_elem_ne {parts : List Str} (hp : ∀ p ∈ parts, p ≠ []) {c : Str}
    (h : c ∈ safetyPass parts) : c ≠ [] := by
  induction parts with
  | nil => simp [safetyPass] at h
  | cons p ps ih =>
    simp only [safetyPass, List.foldr_cons] at h ih
    rcases List.mem_append.mp h with h1 | h1
    · split at h1
      · simp only [List.mem_singleton] at h1; subst h1; exact hp c (by simp)
      · exact (chunksOfNonNl_mem (by norm_num [SAFE_BUDGET]) h1).2.1
    · exact ih (fun q hq => hp q (by simp [hq])) h1

theorem safetyPass_ne_nil {parts : List Str} (h : partsOk parts) : safetyPass parts ≠ [] := by
  induction parts with
  | nil => obtain ⟨p, hm, _⟩ := h; simp at hm
  | cons p ps ih =>
    simp only [safetyPass, List.foldr_cons]
    obtain ⟨q, hm, hq⟩ := h
    rcases List.mem_cons.mp hm with h1 | h1
    · subst h1
      intro hab
      obtain ⟨hl, _⟩ := List.append_eq_nil.mp hab
      split at hl
      · simp at hl
      · exact absurd hl (chunksOfNonNl_ne_nil hq)
    · intro hab
      obtain ⟨_, hr⟩ := List.append_eq_nil.mp hab
      exact ih ⟨q, h1, hq⟩ hr


/-! ### Unfolding step lemmas for the splitters -/

theorem splitWords_nil : splitWords [] = [[]] := rfl

theorem splitWords_ws_nil {c : Char} (hc : isWs c = true) : splitWords [c] = [[], []] := by
  rw [splitWords.eq_def]; simp [hc]

theorem splitWords_ws_ws {c d : Char} {tail : Str} (hc : isWs c = true) (hd : isWs d = true) :
    splitWords (c :: d :: tail) = splitWords (d :: tail) := by
  rw [splitWords.eq_def]; simp [hc, hd]

theorem splitWords_ws_nw {c d : Char} {tail : Str} (hc : isWs c = true) (hd : isWs d = false) :
    splitWords (c :: d :: tail) = [] :: splitWords (d :: tail) := by
  rw [splitWords.eq_def]; simp [hc, hd]

theorem splitWords_nw {c : Char} {rest p : Str} {ps : List Str} (hc : isWs c = false)
    (h : splitWords rest = p :: ps) : splitWords (c :: rest) = (c :: p) :: ps := by
  rw [splitWords.eq_def]
  simp only [hc]
  simp [h]

theorem splitWords_ne_nil : ∀ s : Str, splitWords s ≠ [] := by
  intro s
  induction s using splitWords.induct with
  | case1 => simp [splitWords_nil]
  | case2 c hc => simp [splitWords_ws_nil hc]
  | case3 c hc d rest hd ih => rw [splitWords_ws_ws hc hd]; exact ih
  | case4 c hc d rest hd ih => simp [splitWords_ws_nw hc (by simpa using hd)]
  | case5 c rest hc hnil ih => exact absurd hnil ih
  | case6 c rest hc p ps hps ih => simp [splitWords_nw (by simpa using hc) hps]

theorem sentGo_nil {a b : Bool} : sentGo a b [] = [[]] := rfl

theorem sentGo_swallow {prevP : Bool} {c : Char} {rest : Str} (hc : isWs c = true) :
    sentGo true prevP (c :: rest) = sentGo true false rest := by
  rw [sentGo.eq_def]; simp [hc]

theorem sentGo_cut {c : Char} {rest : Str} (hc : isWs c = true)
    (hla : ((c :: rest).dropWhile (fun x => isWs x)).isEmpty = false) :
    sentGo false true (c :: rest) = [] :: sentGo true false rest := by
  rw [sentGo.eq_def]
  simp only [hc, hla, Bool.false_and, Bool.not_false, Bool.true_and, Bool.and_true,
    Bool.and_self, Bool.false_eq_true, if_false, if_true]

theorem sentGo_plain {inSep prevP : Bool} {c : Char} {rest p : Str} {ps : List Str}
    (h1 : (inSep && isWs c) = false)
    (h2 : (!inSep && prevP && isWs c && !((c :: rest).dropWhile (fun x => isWs x)).isEmpty) = false)
    (h : sentGo false (isPunctEnd c) rest = p :: ps) :
    sentGo inSep prevP (c :: rest) = (c :: p) :: ps := by
  rw [sentGo.eq_def]
  simp only [h1, h2, Bool.false_eq_true, if_false]
  simp [h]

theorem sentGo_ne_nil : ∀ (a b : Bool) (s : Str), sentGo a b s ≠ [] := by
  intro a b s
  induction a, b, s using sentGo.induct with
  | case1 => simp [sentGo_nil]
  | case2 inSep prevP c rest hc ih =>
    rw [sentGo.eq_def]; simp only [hc, if_true]; exact ih
  | case3 inSep prevP c rest h1 h2 ih =>
    rw [sentGo.eq_def]
    simp only [Bool.not_eq_true] at h1
    simp [h1, h2]
  | case4 inSep prevP c rest h1 h2 hnil ih => exact absurd hnil ih
  | case5 inSep prevP c rest h1 h2 p ps hps ih =>
    simp only [Bool.not_eq_true] at h1 h2
    simp [sentGo_plain h1 h2 hps]

theorem paraGo_nil {b : Bool} : paraGo b [] = [[]] := by cases b <;> rfl

theorem paraGo_true_nl {rest : Str} : paraGo true ('\n' :: rest) = paraGo true rest := by
  rw [paraGo.eq_def]; simp

theorem paraGo_true_nn {c : Char} {rest p : Str} {ps : List Str} (hc : c ≠ '\n')
    (h : paraGo false rest = p :: ps) : paraGo true (c :: rest) = (c :: p) :: ps := by
  rw [paraGo.eq_def]; simp [hc, h]

theorem paraGo_false_sep {rest2 : Str} :
    paraGo false ('\n' :: '\n' :: rest2) = [] :: paraGo true rest2 := rfl

theorem paraGo_false_nn {c : Char} {rest p : Str} {ps : List Str} (hc : c ≠ '\n')
    (h : paraGo false rest = p :: ps) : paraGo false (c :: rest) = (c :: p) :: ps := by
  rw [paraGo.eq_def]
  rcases rest with _ | ⟨d, tail⟩ <;> simp [hc, h]

theorem paraGo_false_nl1 {rest p : Str} {ps : List Str} (hr : rest.head? ≠ some '\n')
    (h : paraGo false rest = p :: ps) :
    paraGo false ('\n' :: rest) = ('\n' :: p) :: ps := by
  rcases rest with _ | ⟨d, tail⟩
  · rw [paraGo_nil] at h
    cases h
    rfl
  · have hd : d ≠ '\n' := by simpa using hr
    rw [paraGo.eq_def]
    simp [hd, h]

theorem paraGo_ne_nil : ∀ (b : Bool) (s : Str), paraGo b s ≠ [] := by
  intro b s
  induction b, s using paraGo.induct with
  | case1 b => simp [paraGo_nil]
  | case2 rest ih => rw [paraGo_true_nl]; exact ih
  | case3 c rest hc hnil ih => exact absurd hnil ih
  | case4 c rest hc p ps hps ih => simp [paraGo_true_nn hc hps]
  | case5 rest2 ih => rw [paraGo_false_sep]; simp
  | case6 c rest hne hnil ih => exact absurd hnil ih
  | case7 c rest hne p ps hps ih =>
    by_cases hc : c = '\n'
    · subst hc
      have hr : rest.head? ≠ some '\n' := by
        rcases rest with _ | ⟨d, tail⟩
        · simp
        · simp only [List.head?_cons, ne_eq, Option.some.injEq]
          intro hd
          exact hne tail rfl (by rw [hd])
      simp [paraGo_false_nl1 hr hps]
    · simp [paraGo_false_nn hc hps]

/-! ### Splitter coverage: non-separator characters survive splitting -/

theorem splitWords_ne_nil' {s : Str} : splitWords s ≠ [] := splitWords_ne_nil s

theorem splitWords_covers {ch : Char} (hw : isWs ch = false) :
    ∀ {s : Str}, ch ∈ s → ∃ w ∈ splitWords s, ch ∈ w := by
  intro s
  induction s using splitWords.induct with
  | case1 => intro h; simp at h
  | case2 c hc =>
    intro h
    rcases List.mem_cons.mp h with h1 | h1
    · subst h1; rw [hc] at hw; simp at hw
    · simp at h1
  | case3 c hc d rest hd ih =>
    intro h
    have hcr : ch ∈ d :: rest := by
      rcases List.mem_cons.mp h with h1 | h1
      · subst h1; rw [hc] at hw; simp at hw
      · exact h1
    rw [splitWords_ws_ws hc hd]
    exact ih hcr
  | case4 c hc d rest hd ih =>
    simp only [Bool.not_eq_true] at hd
    intro h
    have hcr : ch ∈ d :: rest := by
      rcases List.mem_cons.mp h with h1 | h1
      · subst h1; rw [hc] at hw; simp at hw
      · exact h1
    obtain ⟨w, hm, hwm⟩ := ih hcr
    rw [splitWords_ws_nw hc hd]
    exact ⟨w, List.mem_cons_of_mem _ hm, hwm⟩
  | case5 c rest hc hnil ih => exact absurd hnil (splitWords_ne_nil rest)
  | case6 c rest hc p ps hps ih =>
    simp only [Bool.not_eq_true] at hc
    intro h
    rw [splitWords_nw hc hps]
    rcases List.mem_cons.mp h with h1 | h1
    · subst h1
      exact ⟨ch :: p, by simp, by simp⟩
    · obtain ⟨w, hm, hwm⟩ := ih h1
      rw [hps] at hm
      rcases List.mem_cons.mp hm with h2 | h2
      · subst h2
        exact ⟨c :: w, by simp, List.mem_cons_of_mem _ hwm⟩
      · exact ⟨w, by simp [h2], hwm⟩

theorem sentGo_covers {ch : Char} (hw : isWs ch = false) :
    ∀ {inSep prevP : Bool} {s : Str}, ch ∈ s → ∃ p ∈ sentGo inSep prevP s, ch ∈ p := by
  intro inSep prevP s
  induction inSep, prevP, s using sentGo.induct with
  | case1 => intro h; simp at h
  | case2 inSep prevP c rest hc ih =>
    intro h
    obtain ⟨hin, hcw⟩ := Bool.and_eq_true_iff.mp hc
    subst hin
    have hcr : ch ∈ rest := by
      rcases List.mem_cons.mp h with h1 | h1
      · subst h1; rw [hcw] at hw; simp at hw
      · exact h1
    rw [sentGo_swallow hcw]
    exact ih hcr
  | case3 inSep prevP c rest h1 h2 ih =>
    intro h
    simp only [Bool.and_eq_true, Bool.not_eq_true', Bool.not_eq_true] at h2
    obtain ⟨⟨⟨hin, hpv⟩, hcw⟩, hla⟩ := h2
    subst hin; subst hpv
    have hcr : ch ∈ rest := by
      rcases List.mem_cons.mp h with h1' | h1'
      · subst h1'; rw [hcw] at hw; simp at hw
      · exact h1'
    rw [sentGo_cut hcw hla]
    obtain ⟨p, hm, hpm⟩ := ih hcr
    exact ⟨p, List.mem_cons_of_mem _ hm, hpm⟩
  | case4 inSep prevP c rest h1 h2 hnil ih =>
    exact absurd hnil (sentGo_ne_nil _ _ _)
  | case5 inSep prevP c rest h1 h2 p ps hps ih =>
    intro h
    simp only [Bool.not_eq_true] at h1 h2
    rw [sentGo_plain h1 h2 hps]
    rcases List.mem_cons.mp h with h1' | h1'
    · subst h1'
      exact ⟨ch :: p, by simp, by simp⟩
    · obtain ⟨q, hm, hqm⟩ := ih h1'
      rw [hps] at hm
      rcases List.mem_cons.mp hm with h2' | h2'
      · subst h2'
        exact ⟨c :: q, by simp, List.mem_cons_of_mem _ hqm⟩
      · exact ⟨q, by simp [h2'], hqm⟩

theorem splitSentences_covers {ch : Char} (hw : isWs ch = false) {s : Str} (h : ch ∈ s) :
    ∃ p ∈ splitSentences s, ch ∈ p :=
  sentGo_covers hw h

theorem paraGo_covers {ch : Char} (hch : ch ≠ '\n') :
    ∀ {b : Bool} {s : Str}, ch ∈ s → ∃ p ∈ paraGo b s, ch ∈ p := by
  intro b s
  induction b, s using paraGo.induct with
  | case1 => intro h; simp at h
  | case2 rest ih =>
    intro h
    have hcr : ch ∈ rest := by
      rcases List.mem_cons.mp h with h1 | h1
      · exact absurd h1 hch
      · exact h1
    rw [paraGo_true_nl]
    exact ih hcr
  | case3 c rest hc hnil ih => exact absurd hnil (paraGo_ne_nil _ _)
  | case4 c rest hc p ps hps ih =>
    intro h
    rw [paraGo_true_nn hc hps]
    rcases List.mem_cons.mp h with h1 | h1
    · subst h1
      exact ⟨ch :: p, by simp, by simp⟩
    · obtain ⟨q, hm, hqm⟩ := ih h1
      rw [hps] at hm
      rcases List.mem_cons.mp hm with h2 | h2
      · subst h2
        exact ⟨c :: q, by simp, List.mem_cons_of_mem _ hqm⟩
      · exact ⟨q, by simp [h2], hqm⟩
  | case5 rest2 ih =>
    intro h
    have hcr : ch ∈ rest2 := by
      rcases List.mem_cons.mp h with h1 | h1
      · exact absurd h1 hch
      · rcases List.mem_cons.mp h1 with h2 | h2
        · exact absurd h2 hch
        · exact h2
    rw [paraGo_false_sep]
    obtain ⟨p, hm, hpm⟩ := ih hcr
    exact ⟨p, List.mem_cons_of_mem _ hm, hpm⟩
  | case6 c rest hne hnil ih => exact absurd hnil (paraGo_ne_nil _ _)
  | case7 c rest hne p ps hps ih =>
    intro h
    have hstep : paraGo false (c :: rest) = (c :: p) :: ps := by
      by_cases hc : c = '\n'
      · subst hc
        have hr : rest.head? ≠ some '\n' := by
          rcases rest with _ | ⟨d, tail⟩
          · simp
          · simp only [List.head?_cons, ne_eq, Option.some.injEq]
            intro hd
            exact hne tail rfl (by rw [hd])
        exact paraGo_false_nl1 hr hps
      · exact paraGo_false_nn hc hps
    rw [hstep]
    rcases List.mem_cons.mp h with h1 | h1
    · subst h1
      exact ⟨ch :: p, by simp, by simp⟩
    · obtain ⟨q, hm, hqm⟩ := ih h1
      rw [hps] at hm
      rcases List.mem_cons.mp hm with h2 | h2
      · subst h2
        exact ⟨c :: q, by simp, List.mem_cons_of_mem _ hqm⟩
      · exact ⟨q, by simp [h2], hqm⟩

theorem splitParas_covers {ch : Char} (hch : ch ≠ '\n') {s : Str} (h : ch ∈ s) :
    ∃ p ∈ splitParas s, ch ∈ p :=
  paraGo_covers hch h

/-! ### Packing loop lemmas -/

theorem hardSliceJS_ok {maxLen : Int} (h0 : maxLen ≠ 0) (w : Str) :
    ∃ ps, hardSliceJS maxLen w = .ok ps := by
  unfold hardSliceJS
  rw [if_neg h0]
  split <;> exact ⟨_, rfl⟩

theorem negPatMatches_elem_ne {lit : Str} : ∀ {s p : Str},
    p ∈ negPatMatches lit s → p ≠ [] := by
  have H : ∀ (n : Nat) (s : Str), s.length ≤ n → ∀ {p : Str},
      p ∈ negPatMatches lit s → p ≠ [] := by
    intro n
    induction n with
    | zero =>
      intro s hs p h
      have hnil : s = [] := List.eq_nil_of_length_eq_zero (by omega)
      subst hnil
      simp [negPatMatches] at h
    | succ n ihn =>
      intro s hs p h
      rcases s with _ | ⟨c, rest⟩
      · simp [negPatMatches] at h
      · simp only [negPatMatches] at h
        simp only [List.length_cons] at hs
        split at h
        · rcases List.mem_cons.mp h with h1 | h1
          · subst h1; simp
          · refine ihn _ ?_ h1
            have hd : (rest.drop lit.length).length = rest.length - lit.length :=
              List.length_drop _ _
            omega
        · exact ihn _ (by omega) h
  intro s p h
  exact H s.length s le_rfl h

theorem hardSliceJS_elem_ne {maxLen : Int} {w : Str} {ps : List Str}
    (h : hardSliceJS maxLen w = .ok ps) : ∀ p ∈ ps, p ≠ [] := by
  unfold hardSliceJS at h
  split at h
  · simp at h
  · split at h
    · simp only [Except.ok.injEq] at h
      subst h
      intro p hp
      exact negPatMatches_elem_ne hp
    · next h0 hneg =>
      simp only [Except.ok.injEq] at h
      subst h
      intro p hp
      have hn : 1 ≤ maxLen.toNat := by omega
      exact (chunksOfNonNl_mem hn hp).2.1

theorem hardSliceJS_good {maxLen : Int} (hml : 1 ≤ maxLen) {w : Str} {ps : List Str}
    (h : hardSliceJS maxLen w = .ok ps) (hw : hasNonWs w) : partsOk ps := by
  unfold hardSliceJS at h
  rw [if_neg (by omega), if_neg (by omega)] at h
  simp only [Except.ok.injEq] at h
  subst h
  have hlt : hasNonLT w := hasNonLT_of_hasNonWs hw
  rcases hx : chunksOfNonNl maxLen.toNat w with _ | ⟨p, ps'⟩
  · exact absurd hx (chunksOfNonNl_ne_nil hlt)
  · have hm : p ∈ chunksOfNonNl maxLen.toNat w := by rw [hx]; simp
    obtain ⟨-, hpne, hpnlt⟩ := chunksOfNonNl_mem (by omega) hm
    refine ⟨p, by simp, ?_⟩
    obtain ⟨ch, hch⟩ := List.exists_mem_of_ne_nil p hpne
    exact ⟨ch, hch, hpnlt ch hch⟩

theorem mem_push_ne {parts : List Str} {buf : Str} (hp : ∀ p ∈ parts, p ≠ []) :
    ∀ p ∈ (if buf.isEmpty then parts else parts ++ [buf]), p ≠ [] := by
  intro p hm
  split at hm
  · exact hp p hm
  · next hbuf =>
    rcases List.mem_append.mp hm with h1 | h1
    · exact hp p h1
    · simp only [List.mem_singleton] at h1
      subst h1
      intro hc
      exact hbuf (by simp [hc])

theorem push_partsOk {parts : List Str} {buf : Str} (h : partsOk parts ∨ hasNonLT buf) :
    partsOk (if buf.isEmpty then parts else parts ++ [buf]) := by
  split
  · next hemp =>
    rcases h with h | h
    · exact h
    · exfalso
      obtain ⟨ch, hm, _⟩ := h
      rw [List.isEmpty_iff.mp hemp] at hm
      simp at hm
  · rcases h with h | h
    · exact partsOk_append_left h
    · exact partsOk_append_right ⟨buf, by simp, h⟩

theorem wordLoop_ok {maxLen : Int} (h0 : maxLen ≠ 0) :
    ∀ (ws parts : List Str) (wBuf : Str), ∃ r, wordLoop maxLen ws parts wBuf = .ok r := by
  intro ws
  induction ws with
  | nil => intro parts wBuf; exact ⟨_, rfl⟩
  | cons w ws ih =>
    intro parts wBuf
    simp only [wordLoop]
    obtain ⟨ps, hps⟩ := hardSliceJS_ok h0 w
    rw [hps]
    simp only [bind, Except.bind]
    repeat' split
    all_goals exact ih _ _

theorem wordLoop_parts {maxLen : Int} :
    ∀ (ws parts : List Str) (wBuf : Str) {parts' : List Str} {wBuf' : Str},
      wordLoop maxLen ws parts wBuf = .ok (parts', wBuf') →
      (∀ p ∈ parts, p ≠ []) → (∀ p ∈ parts', p ≠ []) := by
  intro ws
  induction ws with
  | nil =>
    intro parts wBuf parts' wBuf' h hp
    simp only [wordLoop, Except.ok.injEq, Prod.mk.injEq] at h
    obtain ⟨h1, h2⟩ := h
    subst h1
    exact hp
  | cons w ws ih =>
    intro parts wBuf parts' wBuf' h hp
    simp only [wordLoop] at h
    by_cases hemp : wBuf.isEmpty = true
    · simp only [hemp, if_true] at h
      split at h
      · exact ih _ _ h hp
      · rcases hsl : hardSliceJS maxLen w with e | pieces
        · rw [hsl] at h
          simp only [bind, Except.bind] at h
          exact Except.noConfusion h
        · rw [hsl] at h
          simp only [bind, Except.bind] at h
          refine ih _ _ h ?_
          intro p hm
          rcases List.mem_append.mp hm with h1 | h1
          · exact hp p h1
          · exact hardSliceJS_elem_ne hsl p h1
    · have hemp' : wBuf.isEmpty = false := by
        cases hx : wBuf.isEmpty
        · rfl
        · exact absurd hx hemp
      have hwne : wBuf ≠ [] := by
        intro hc
        rw [hc] at hemp'
        simp at hemp'
      have hp1 : ∀ p ∈ parts ++ [wBuf], p ≠ [] := by
        intro p hm
        rcases List.mem_append.mp hm with h1 | h1
        · exact hp p h1
        · simp only [List.mem_singleton] at h1
          subst h1
          exact hwne
      simp only [hemp', Bool.false_eq_true, if_false] at h
      split at h
      · exact ih _ _ h hp
      · split at h
        · exact ih _ _ h hp1
        · rcases hsl : hardSliceJS maxLen w with e | pieces
          · rw [hsl] at h
            simp only [bind, Except.bind] at h
            exact Except.noConfusion h
          · rw [hsl] at h
            simp only [bind, Except.bind] at h
            refine ih _ _ h ?_
            intro p hm
            rcases List.mem_append.mp hm with h1 | h1
            · exact hp1 p h1
            · exact hardSliceJS_elem_ne hsl p h1

theorem wordLoop_good {maxLen : Int} (hml : 1 ≤ maxLen) :
    ∀ (ws parts : List Str) (wBuf : Str) {parts' : List Str} {wBuf' : Str},
      wordLoop maxLen ws parts wBuf = .ok (parts', wBuf') →
      ((∃ w ∈ ws, hasNonWs w) ∨ partsOk parts ∨ hasNonLT wBuf) →
      (partsOk parts' ∨ hasNonLT wBuf') := by
  intro ws
  induction ws with
  | nil =>
    intro parts wBuf parts' wBuf' h hgood
    simp only [wordLoop, Except.ok.injEq, Prod.mk.injEq] at h
    obtain ⟨h1, h2⟩ := h
    subst h1; subst h2
    rcases hgood with ⟨w, hm, _⟩ | hgood | hgood
    · simp at hm
    · exact Or.inl hgood
    · exact Or.inr hgood
  | cons w ws ih =>
    intro parts wBuf parts' wBuf' h hgood
    simp only [wordLoop] at h
    by_cases hemp : wBuf.isEmpty = true
    · have hwnil : wBuf = [] := List.isEmpty_iff.mp hemp
      subst hwnil
      simp only [hemp, if_true] at h
      have hgood' : (∃ u ∈ w :: ws, hasNonWs u) ∨ partsOk parts := by
        rcases hgood with hg | hg | hg
        · exact Or.inl hg
        · exact Or.inr hg
        · obtain ⟨ch, hm, _⟩ := hg
          simp at hm
      split at h
      · refine ih _ _ h ?_
        rcases hgood' with ⟨u, hm, hu⟩ | hg
        · rcases List.mem_cons.mp hm with h1 | h1
          · subst h1
            exact Or.inr (Or.inr (hasNonLT_of_hasNonWs hu))
          · exact Or.inl ⟨u, h1, hu⟩
        · exact Or.inr (Or.inl hg)
      · rcases hsl : hardSliceJS maxLen w with e | pieces
        · rw [hsl] at h
          simp only [bind, Except.bind] at h
          exact Except.noConfusion h
        · rw [hsl] at h
          simp only [bind, Except.bind] at h
          refine ih _ _ h ?_
          rcases hgood' with ⟨u, hm, hu⟩ | hg
          · rcases List.mem_cons.mp hm with h1 | h1
            · subst h1
              exact Or.inr (Or.inl (partsOk_append_right (hardSliceJS_good hml hsl hu)))
            · exact Or.inl ⟨u, h1, hu⟩
          · exact Or.inr (Or.inl (partsOk_append_left hg))
    · have hemp' : wBuf.isEmpty = false := by
        cases hx : wBuf.isEmpty
        · rfl
        · exact absurd hx hemp
      simp only [hemp', Bool.false_eq_true, if_false] at h
      split at h
      · refine ih _ _ h ?_
        rcases hgood with ⟨u, hm, hu⟩ | hg | hg
        · rcases List.mem_cons.mp hm with h1 | h1
          · subst h1
            right; right
            obtain ⟨ch, hcm, hcw⟩ := hu
            exact ⟨ch, List.mem_append_right _ (List.mem_cons_of_mem _ hcm),
              nonLT_of_nonWs hcw⟩
          · exact Or.inl ⟨u, h1, hu⟩
        · exact Or.inr (Or.inl hg)
        · right; right
          obtain ⟨ch, hcm, hc⟩ := hg
          exact ⟨ch, List.mem_append_left _ hcm, hc⟩
      · have htrans : partsOk parts ∨ hasNonLT wBuf → partsOk (parts ++ [wBuf]) := by
          intro hx
          rcases hx with hx | hx
          · exact partsOk_append_left hx
          · exact partsOk_append_right ⟨wBuf, by simp, hx⟩
        split at h
        · refine ih _ _ h ?_
          rcases hgood with ⟨u, hm, hu⟩ | hg | hg
          · rcases List.mem_cons.mp hm with h1 | h1
            · subst h1
              exact Or.inr (Or.inr (hasNonLT_of_hasNonWs hu))
            · exact Or.inl ⟨u, h1, hu⟩
          · exact Or.inr (Or.inl (htrans (Or.inl hg)))
          · exact Or.inr (Or.inl (htrans (Or.inr hg)))
        · rcases hsl : hardSliceJS maxLen w with e | pieces
          · rw [hsl] at h
            simp only [bind, Except.bind] at h
            exact Except.noConfusion h
          · rw [hsl] at h
            simp only [bind, Except.bind] at h
            refine ih _ _ h ?_
            rcases hgood with ⟨u, hm, hu⟩ | hg | hg
            · rcases List.mem_cons.mp hm with h1 | h1
              · subst h1
                exact Or.inr (Or.inl (partsOk_append_right (hardSliceJS_good hml hsl hu)))
              · exact Or.inl ⟨u, h1, hu⟩
            · exact Or.inr (Or.inl (partsOk_append_left (htrans (Or.inl hg))))
            · exact Or.inr (Or.inl (partsOk_append_left (htrans (Or.inr hg))))

theorem sentLoop_ok {maxLen : Int} (h0 : maxLen ≠ 0) :
    ∀ (ss parts : List Str) (sBuf : Str), ∃ r, sentLoop maxLen ss parts sBuf = .ok r := by
  intro ss
  induction ss with
  | nil => intro parts sBuf; exact ⟨_, rfl⟩
  | cons s ss ih =>
    intro parts sBuf
    simp only [sentLoop]
    obtain ⟨⟨parts2, wBuf⟩, hwl⟩ :=
      wordLoop_ok h0 (splitWords s) (if sBuf.isEmpty then parts else parts ++ [sBuf]) []
    rw [hwl]
    simp only [bind, Except.bind]
    repeat' split
    all_goals exact ih _ _

theorem sentLoop_parts {maxLen : Int} :
    ∀ (ss parts : List Str) (sBuf : Str) {parts' : List Str} {sBuf' : Str},
      sentLoop maxLen ss parts sBuf = .ok (parts', sBuf') →
      (∀ p ∈ parts, p ≠ []) → (∀ p ∈ parts', p ≠ []) := by
  intro ss
  induction ss with
  | nil =>
    intro parts sBuf parts' sBuf' h hp
    simp only [sentLoop, Except.ok.injEq, Prod.mk.injEq] at h
    obtain ⟨h1, h2⟩ := h
    subst h1
    exact hp
  | cons s ss ih =>
    intro parts sBuf parts' sBuf' h hp
    simp only [sentLoop] at h
    by_cases hemp : sBuf.isEmpty = true
    · simp only [hemp, if_true] at h
      split at h
      · exact ih _ _ h hp
      · rcases hwl : wordLoop maxLen (splitWords s) parts [] with e | ⟨parts2, wBuf⟩
        · rw [hwl] at h
          simp only [bind, Except.bind] at h
          exact Except.noConfusion h
        · rw [hwl] at h
          simp only [bind, Except.bind] at h
          refine ih _ _ h ?_
          exact mem_push_ne (wordLoop_parts _ _ _ hwl hp)
    · have hemp' : sBuf.isEmpty = false := by
        cases hx : sBuf.isEmpty
        · rfl
        · exact absurd hx hemp
      have hsne : sBuf ≠ [] := by
        intro hc
        rw [hc] at hemp'
        simp at hemp'
      have hp1 : ∀ p ∈ parts ++ [sBuf], p ≠ [] := by
        intro p hm
        rcases List.mem_append.mp hm with h1 | h1
        · exact hp p h1
        · simp only [List.mem_singleton] at h1
          subst h1
          exact hsne
      simp only [hemp', Bool.false_eq_true, if_false] at h
      split at h
      · exact ih _ _ h hp
      · split at h
        · exact ih _ _ h hp1
        · rcases hwl : wordLoop maxLen (splitWords s) (parts ++ [sBuf]) [] with e | ⟨parts2, wBuf⟩
          · rw [hwl] at h
            simp only [bind, Except.bind] at h
            exact Except.noConfusion h
          · rw [hwl] at h
            simp only [bind, Except.bind] at h
            refine ih _ _ h ?_
            exact mem_push_ne (wordLoop_parts _ _ _ hwl hp1)

theorem sentLoop_good {maxLen : Int} (hml : 1 ≤ maxLen) :
    ∀ (ss parts : List Str) (sBuf : Str) {parts' : List Str} {sBuf' : Str},
      sentLoop maxLen ss parts sBuf = .ok (parts', sBuf') →
      ((∃ s ∈ ss, hasNonWs s) ∨ partsOk parts ∨ hasNonLT sBuf) →
      (partsOk parts' ∨ hasNonLT sBuf') := by
  intro ss
  induction ss with
  | nil =>
    intro parts sBuf parts' sBuf' h hgood
    simp only [sentLoop, Except.ok.injEq, Prod.mk.injEq] at h
    obtain ⟨h1, h2⟩ := h
    subst h1; subst h2
    rcases hgood with ⟨s, hm, _⟩ | hg | hg
    · simp at hm
    · exact Or.inl hg
    · exact Or.inr hg
  | cons s ss ih =>
    intro parts sBuf parts' sBuf' h hgood
    have hword : ∀ {parts1 parts2 : List Str} {wBuf : Str},
        wordLoop maxLen (splitWords s) parts1 [] = .ok (parts2, wBuf) →
        (hasNonWs s ∨ partsOk parts1) →
        partsOk (if wBuf.isEmpty then parts2 else parts2 ++ [wBuf]) := by
      intro parts1 parts2 wBuf hwl hx
      refine push_partsOk (wordLoop_good hml _ _ _ hwl ?_)
      rcases hx with hx | hx
      · obtain ⟨ch, hm, hw⟩ := hx
        obtain ⟨w, hwm, hchm⟩ := splitWords_covers hw hm
        exact Or.inl ⟨w, hwm, ⟨ch, hchm, hw⟩⟩
      · exact Or.inr (Or.inl hx)
    simp only [sentLoop] at h
    by_cases hemp : sBuf.isEmpty = true
    · have hsnil : sBuf = [] := List.isEmpty_iff.mp hemp
      subst hsnil
      simp only [hemp, if_true] at h
      have hgood' : (∃ u ∈ s :: ss, hasNonWs u) ∨ partsOk parts := by
        rcases hgood with hg | hg | hg
        · exact Or.inl hg
        · exact Or.inr hg
        · obtain ⟨ch, hm, _⟩ := hg
          simp at hm
      split at h
      · refine ih _ _ h ?_
        rcases hgood' with ⟨u, hm, hu⟩ | hg
        · rcases List.mem_cons.mp hm with h1 | h1
          · subst h1
            exact Or.inr (Or.inr (hasNonLT_of_hasNonWs hu))
          · exact Or.inl ⟨u, h1, hu⟩
        · exact Or.inr (Or.inl hg)
      · rcases hwl : wordLoop maxLen (splitWords s) parts [] with e | ⟨parts2, wBuf⟩
        · rw [hwl] at h
          simp only [bind, Except.bind] at h
          exact Except.noConfusion h
        · rw [hwl] at h
          simp only [bind, Except.bind] at h
          refine ih _ _ h ?_
          rcases hgood' with ⟨u, hm, hu⟩ | hg
          · rcases List.mem_cons.mp hm with h1 | h1
            · subst h1
              exact Or.inr (Or.inl (hword hwl (Or.inl hu)))
            · exact Or.inl ⟨u, h1, hu⟩
          · exact Or.inr (Or.inl (hword hwl (Or.inr hg)))
    · have hemp' : sBuf.isEmpty = false := by
        cases hx : sBuf.isEmpty
        · rfl
        · exact absurd hx hemp
      simp only [hemp', Bool.false_eq_true, if_false] at h
      have htrans : partsOk parts ∨ hasNonLT sBuf → partsOk (parts ++ [sBuf]) := by
        intro hx
        rcases hx with hx | hx
        · exact partsOk_append_left hx
        · exact partsOk_append_right ⟨sBuf, by simp, hx⟩
      split at h
      · refine ih _ _ h ?_
        rcases hgood with ⟨u, hm, hu⟩ | hg | hg
        · rcases List.mem_cons.mp hm with h1 | h1
          · subst h1
            right; right
            obtain ⟨ch, hcm, hcw⟩ := hu
            exact ⟨ch, List.mem_append_right _ (List.mem_cons_of_mem _ hcm),
              nonLT_of_nonWs hcw⟩
          · exact Or.inl ⟨u, h1, hu⟩
        · exact Or.inr (Or.inl hg)
        · right; right
          obtain ⟨ch, hcm, hc⟩ := hg
          exact ⟨ch, List.mem_append_left _ hcm, hc⟩
      · split at h
        · refine ih _ _ h ?_
          rcases hgood with ⟨u, hm, hu⟩ | hg | hg
          · rcases List.mem_cons.mp hm with h1 | h1
            · subst h1
              exact Or.inr (Or.inr (hasNonLT_of_hasNonWs hu))
            · exact Or.inl ⟨u, h1, hu⟩
          · exact Or.inr (Or.inl (htrans (Or.inl hg)))
          · exact Or.inr (Or.inl (htrans (Or.inr hg)))
        · rcases hwl : wordLoop maxLen (splitWords s) (parts ++ [sBuf]) [] with e | ⟨parts2, wBuf⟩
          · rw [hwl] at h
            simp only [bind, Except.bind] at h
            exact Except.noConfusion h
          · rw [hwl] at h
            simp only [bind, Except.bind] at h
            refine ih _ _ h ?_
            rcases hgood with ⟨u, hm, hu⟩ | hg | hg
            · rcases List.mem_cons.mp hm with h1 | h1
              · subst h1
                exact Or.inr (Or.inl (hword hwl (Or.inl hu)))
              · exact Or.inl ⟨u, h1, hu⟩
            · exact Or.inr (Or.inl (hword hwl (Or.inr (htrans (Or.inl hg)))))
            · exact Or.inr (Or.inl (hword hwl (Or.inr (htrans (Or.inr hg)))))

theorem paraLoop_ok {maxLen : Int} (h0 : maxLen ≠ 0) :
    ∀ (ps parts : List Str) (buffer : Str), ∃ r, paraLoop maxLen ps parts buffer = .ok r := by
  intro ps
  induction ps with
  | nil => intro parts buffer; exact ⟨_, rfl⟩
  | cons p ps ih =>
    intro parts buffer
    simp only [paraLoop]
    obtain ⟨⟨parts2, sBuf⟩, hsl⟩ :=
      sentLoop_ok h0 (splitSentences p) (if buffer.isEmpty then parts else parts ++ [buffer]) []
    rw [hsl]
    simp only [bind, Except.bind]
    repeat' split
    all_goals exact ih _ _

theorem paraLoop_parts {maxLen : Int} :
    ∀ (ps parts : List Str) (buffer : Str) {parts' : List Str} {buffer' : Str},
      paraLoop maxLen ps parts buffer = .ok (parts', buffer') →
      (∀ p ∈ parts, p ≠ []) → (∀ p ∈ parts', p ≠ []) := by
  intro ps
  induction ps with
  | nil =>
    intro parts buffer parts' buffer' h hp
    simp only [paraLoop, Except.ok.injEq, Prod.mk.injEq] at h
    obtain ⟨h1, h2⟩ := h
    subst h1
    exact hp
  | cons p ps ih =>
    intro parts buffer parts' buffer' h hp
    simp only [paraLoop] at h
    by_cases hemp : buffer.isEmpty = true
    · simp only [hemp, if_true] at h
      split at h
      · exact ih _ _ h hp
      · rcases hsl : sentLoop maxLen (splitSentences p) parts [] with e | ⟨parts2, sBuf⟩
        · rw [hsl] at h
          simp only [bind, Except.bind] at h
          exact Except.noConfusion h
        · rw [hsl] at h
          simp only [bind, Except.bind] at h
          refine ih _ _ h ?_
          exact mem_push_ne (sentLoop_parts _ _ _ hsl hp)
    · have hemp' : buffer.isEmpty = false := by
        cases hx : buffer.isEmpty
        · rfl
        · exact absurd hx hemp
      have hbne : buffer ≠ [] := by
        intro hc
        rw [hc] at hemp'
        simp at hemp'
      have hp1 : ∀ p ∈ parts ++ [buffer], p ≠ [] := by
        intro p hm
        rcases List.mem_append.mp hm with h1 | h1
        · exact hp p h1
        · simp only [List.mem_singleton] at h1
          subst h1
          exact hbne
      simp only [hemp', Bool.false_eq_true, if_false] at h
      split at h
      · exact ih _ _ h hp
      · split at h
        · exact ih _ _ h hp1
        · rcases hsl : sentLoop maxLen (splitSentences p) (parts ++ [buffer]) []
            with e | ⟨parts2, sBuf⟩
          · rw [hsl] at h
            simp only [bind, Except.bind] at h
            exact Except.noConfusion h
          · rw [hsl] at h
            simp only [bind, Except.bind] at h
            refine ih _ _ h ?_
            exact mem_push_ne (sentLoop_parts _ _ _ hsl hp1)

theorem paraLoop_good {maxLen : Int} (hml : 1 ≤ maxLen) :
    ∀ (ps parts : List Str) (buffer : Str) {parts' : List Str} {buffer' : Str},
      paraLoop maxLen ps parts buffer = .ok (parts', buffer') →
      ((∃ p ∈ ps, hasNonWs p) ∨ partsOk parts ∨ hasNonLT buffer) →
      (partsOk parts' ∨ hasNonLT buffer') := by
  intro ps
  induction ps with
  | nil =>
    intro parts buffer parts' buffer' h hgood
    simp only [paraLoop, Except.ok.injEq, Prod.mk.injEq] at h
    obtain ⟨h1, h2⟩ := h
    subst h1; subst h2
    rcases hgood with ⟨p, hm, _⟩ | hg | hg
    · simp at hm
    · exact Or.inl hg
    · exact Or.inr hg
  | cons p ps ih =>
    intro parts buffer parts' buffer' h hgood
    have hsent : ∀ {parts1 parts2 : List Str} {sBuf : Str},
        sentLoop maxLen (splitSentences p) parts1 [] = .ok (parts2, sBuf) →
        (hasNonWs p ∨ partsOk parts1) →
        partsOk (if sBuf.isEmpty then parts2 else parts2 ++ [sBuf]) := by
      intro parts1 parts2 sBuf hsl hx
      refine push_partsOk (sentLoop_good hml _ _ _ hsl ?_)
      rcases hx with hx | hx
      · obtain ⟨ch, hm, hw⟩ := hx
        obtain ⟨sq, hsm, hchm⟩ := splitSentences_covers hw hm
        exact Or.inl ⟨sq, hsm, ⟨ch, hchm, hw⟩⟩
      · exact Or.inr (Or.inl hx)
    simp only [paraLoop] at h
    by_cases hemp : buffer.isEmpty = true
    · have hbnil : buffer = [] := List.isEmpty_iff.mp hemp
      subst hbnil
      simp only [hemp, if_true] at h
      have hgood' : (∃ u ∈ p :: ps, hasNonWs u) ∨ partsOk parts := by
        rcases hgood with hg | hg | hg
        · exact Or.inl hg
        · exact Or.inr hg
        · obtain ⟨ch, hm, _⟩ := hg
          simp at hm
      split at h
      · refine ih _ _ h ?_
        rcases hgood' with ⟨u, hm, hu⟩ | hg
        · rcases List.mem_cons.mp hm with h1 | h1
          · subst h1
            exact Or.inr (Or.inr (hasNonLT_of_hasNonWs hu))
          · exact Or.inl ⟨u, h1, hu⟩
        · exact Or.inr (Or.inl hg)
      · rcases hsl : sentLoop maxLen (splitSentences p) parts [] with e | ⟨parts2, sBuf⟩
        · rw [hsl] at h
          simp only [bind, Except.bind] at h
          exact Except.noConfusion h
        · rw [hsl] at h
          simp only [bind, Except.bind] at h
          refine ih _ _ h ?_
          rcases hgood' with ⟨u, hm, hu⟩ | hg
          · rcases List.mem_cons.mp hm with h1 | h1
            · subst h1
              exact Or.inr (Or.inl (hsent hsl (Or.inl hu)))
            · exact Or.inl ⟨u, h1, hu⟩
          · exact Or.inr (Or.inl (hsent hsl (Or.inr hg)))
    · have hemp' : buffer.isEmpty = false := by
        cases hx : buffer.isEmpty
        · rfl
        · exact absurd hx hemp
      simp only [hemp', Bool.false_eq_true, if_false] at h
      have htrans : partsOk parts ∨ hasNonLT buffer → partsOk (parts ++ [buffer]) := by
        intro hx
        rcases hx with hx | hx
        · exact partsOk_append_left hx
        · exact partsOk_append_right ⟨buffer, by simp, hx⟩
      split at h
      · refine ih _ _ h ?_
        rcases hgood with ⟨u, hm, hu⟩ | hg | hg
        · rcases List.mem_cons.mp hm with h1 | h1
          · subst h1
            right; right
            obtain ⟨ch, hcm, hcw⟩ := hu
            exact ⟨ch, List.mem_append_right _ (List.mem_cons_of_mem _ (List.mem_cons_of_mem _ hcm)),
              nonLT_of_nonWs hcw⟩
          · exact Or.inl ⟨u, h1, hu⟩
        · exact Or.inr (Or.inl hg)
        · right; right
          obtain ⟨ch, hcm, hc⟩ := hg
          exact ⟨ch, List.mem_append_left _ hcm, hc⟩
      · split at h
        · refine ih _ _ h ?_
          rcases hgood with ⟨u, hm, hu⟩ | hg | hg
          · rcases List.mem_cons.mp hm with h1 | h1
            · subst h1
              exact Or.inr (Or.inr (hasNonLT_of_hasNonWs hu))
            · exact Or.inl ⟨u, h1, hu⟩
          · exact Or.inr (Or.inl (htrans (Or.inl hg)))
          · exact Or.inr (Or.inl (htrans (Or.inr hg)))
        · rcases hsl : sentLoop maxLen (splitSentences p) (parts ++ [buffer]) []
            with e | ⟨parts2, sBuf⟩
          · rw [hsl] at h
            simp only [bind, Except.bind] at h
            exact Except.noConfusion h
          · rw [hsl] at h
            simp only [bind, Except.bind] at h
            refine ih _ _ h ?_
            rcases hgood with ⟨u, hm, hu⟩ | hg | hg
            · rcases List.mem_cons.mp hm with h1 | h1
              · subst h1
                exact Or.inr (Or.inl (hsent hsl (Or.inl hu)))
              · exact Or.inl ⟨u, h1, hu⟩
            · exact Or.inr (Or.inl (hsent hsl (Or.inr (htrans (Or.inl hg)))))
            · exact Or.inr (Or.inl (hsent hsl (Or.inr (htrans (Or.inr hg)))))

/-! ### Destructuring `chunkForTelegram` -/

theorem chunkForTelegram_ok_dest {text : Str} {maxLen : Int} {res : List Str}
    (h : chunkForTelegram text maxLen = .ok res) :
    (res = [text] ∧ (text.isEmpty = true ∨ (text.length : Int) ≤ maxLen)) ∨
    (∃ parts buffer, paraLoop maxLen (splitParas text) [] [] = .ok (parts, buffer) ∧
      res = safetyPass (if buffer.isEmpty then parts else parts ++ [buffer]) ∧
      ¬(text.isEmpty = true ∨ (text.length : Int) ≤ maxLen)) := by
  unfold chunkForTelegram at h
  split at h
  · next hc =>
    left
    simp only [Except.ok.injEq] at h
    refine ⟨h.symm, ?_⟩
    simpa [Bool.or_eq_true, decide_eq_true_eq] using hc
  · next hc =>
    right
    rcases hpl : paraLoop maxLen (splitParas text) [] [] with e | ⟨parts, buffer⟩
    · rw [hpl] at h
      simp only [bind, Except.bind] at h
      exact Except.noConfusion h
    · rw [hpl] at h
      simp only [bind, Except.bind, Except.ok.injEq] at h
      refine ⟨parts, buffer, rfl, h.symm, ?_⟩
      simpa [Bool.or_eq_true, decide_eq_true_eq] using hc

/-! ### Claim C7 -/

/-- C7: for every text whose length is at most `maxLen`,
`chunkForTelegram(text, maxLen)` returns exactly the one-element
sequence containing the text unchanged, and for empty (falsy) input it
returns a one-element sequence containing the empty string. -/
theorem c7_single_chunk :
    (∀ (text : Str) (maxLen : Int), (text.length : Int) ≤ maxLen →
      chunkForTelegram text maxLen = .ok [text]) ∧
    (∀ maxLen : Int, chunkForTelegram [] maxLen = .ok [[]]) := by
  constructor
  · intro text maxLen h
    have hc : (text.isEmpty || decide ((text.length : Int) ≤ maxLen)) = true := by
      simp [h]
    unfold chunkForTelegram
    rw [if_pos hc]
  · intro maxLen
    unfold chunkForTelegram
    rw [if_pos (by simp)]

/-- C7 witness: concrete instances of `c7_single_chunk`. -/
theorem c7_witness :
    (("hi".data.length : Int) ≤ 5 ∧ chunkForTelegram "hi".data 5 = .ok ["hi".data]) ∧
    chunkForTelegram [] (-7) = .ok [[]] :=
  ⟨⟨by decide, c7_single_chunk.1 "hi".data 5 (by decide)⟩, c7_single_chunk.2 (-7)⟩

/-! ### Claim C1 -/

/-- C1 counterexample: with `maxLen = 4098`, larger than the hard cap,
a 4097-character text is returned whole by the early fits-return, so a
chunk exceeds `MAX_TELEGRAM = 4096`; the claim as stated is false. -/
theorem c1_counterexample :
    chunkForTelegram (List.replicate 4097 'a') 4098 = .ok [List.replicate 4097 'a'] ∧
    ∃ c ∈ [List.replicate 4097 'a'], MAX_TELEGRAM < c.length := by
  constructor
  · have hlen : ((List.replicate 4097 'a').length : Int) = 4097 := by
      rw [List.length_replicate]
      norm_num
    have hc : ((List.replicate 4097 'a').isEmpty ||
        decide (((List.replicate 4097 'a').length : Int) ≤ 4098)) = true := by
      rw [Bool.or_eq_true]
      right
      rw [decide_eq_true_eq, hlen]
      norm_num
    unfold chunkForTelegram
    rw [if_pos hc]
  · refine ⟨List.replicate 4097 'a', List.mem_singleton.mpr rfl, ?_⟩
    rw [List.length_replicate]
    norm_num [MAX_TELEGRAM]

/-- C1 (amended): every chunk returned by `chunkForTelegram(text, maxLen)`
has length at most the hard cap `MAX_TELEGRAM = 4096`, provided either
`maxLen ≤ 4096` or the text is longer than `maxLen` (the final safety
pass guarantees the bound on the main path; only the early whole-fits
return with an over-cap `maxLen` can exceed it). -/
theorem c1_amended {text : Str} {maxLen : Int} {res : List Str}
    (hres : chunkForTelegram text maxLen = .ok res)
    (hcase : maxLen ≤ (MAX_TELEGRAM : Int) ∨ maxLen < (text.length : Int)) :
    ∀ c ∈ res, c.length ≤ MAX_TELEGRAM := by
  rcases chunkForTelegram_ok_dest hres with ⟨hres1, hcond⟩ | ⟨parts, buffer, hpl, hres1, hcond⟩
  · subst hres1
    intro c hc
    simp only [List.mem_singleton] at hc
    subst hc
    rcases hcond with hemp | hlen
    · rw [List.isEmpty_iff.mp hemp]
      simp
    · rcases hcase with hml | hoverflow
      · unfold MAX_TELEGRAM at hml ⊢
        omega
      · omega
  · subst hres1
    intro c hc
    exact safetyPass_len hc

/-- C1 witness: concrete instance of `c1_amended`. -/
theorem c1_witness :
    chunkForTelegram "aaaaa".data 3 = .ok ["aaa".data, "aa".data] ∧
    (3 : Int) ≤ (MAX_TELEGRAM : Int) ∧
    ∀ c ∈ ["aaa".data, "aa".data], c.length ≤ MAX_TELEGRAM :=
  ⟨rfl, by decide,
    @c1_amended "aaaaa".data 3 ["aaa".data, "aa".data] rfl (Or.inl (by decide))⟩

/-! ### Claim C3 -/

/-- C3 counterexample: for `maxLen = 0` the dynamically built regular
expression `.\x7b1,0\x7d` is invalid and `chunkForTelegram('ab', 0)`
raises a `SyntaxError` instead of returning; the claim as stated is
false. -/
theorem c3_counterexample : chunkForTelegram "ab".data 0 = .error () := rfl

/-- C3 (amended): `chunkForTelegram(text, maxLen)` returns normally
(never raises) for every text and every nonzero integer `maxLen`; the
escaping function `processMarkdownV2Safe` is total in this embedding
(URL-parse failures are caught in the source). -/
theorem c3_amended : ∀ (text : Str) (maxLen : Int), maxLen ≠ 0 →
    ∃ res, chunkForTelegram text maxLen = .ok res := by
  intro text maxLen h0
  unfold chunkForTelegram
  split
  · exact ⟨_, rfl⟩
  · obtain ⟨⟨parts, buffer⟩, hpl⟩ := paraLoop_ok h0 (splitParas text) [] []
    rw [hpl]
    simp only [bind, Except.bind]
    exact ⟨_, rfl⟩

/-- C3 witness: concrete instance of `c3_amended`. -/
theorem c3_witness : (1 : Int) ≠ 0 ∧ ∃ res, chunkForTelegram "ab".data 1 = .ok res :=
  ⟨by decide, c3_amended "ab".data 1 (by decide)⟩

/-! ### Claim C4 -/

/-- C4 counterexample: a whitespace-only text longer than `maxLen` is
dissolved by the splitting levels and `chunkForTelegram` returns the
empty sequence; the claim as stated is false. -/
theorem c4_counterexample : chunkForTelegram "   ".data 2 = .ok [] := rfl

/-- C4 (amended): `chunkForTelegram(text, maxLen)` returns at least one
chunk provided the text is empty, or fits within `maxLen`, or
(`1 ≤ maxLen` and) the text contains at least one non-whitespace
character. -/
theorem c4_amended : ∀ (text : Str) (maxLen : Int) (res : List Str),
    chunkForTelegram text maxLen = .ok res →
    (text.isEmpty = true ∨ (text.length : Int) ≤ maxLen ∨
      (1 ≤ maxLen ∧ ∃ ch ∈ text, isWs ch = false)) →
    res ≠ [] := by
  intro text maxLen res hres hcond
  rcases chunkForTelegram_ok_dest hres with ⟨hres1, _⟩ | ⟨parts, buffer, hpl, hres1, hcond2⟩
  · subst hres1
    simp
  · subst hres1
    rcases hcond with hemp | hlen | ⟨hml, ch, hchm, hchw⟩
    · exact absurd (Or.inl hemp) hcond2
    · exact absurd (Or.inr hlen) hcond2
    · have hchnl : ch ≠ '\n' := by
        intro hc
        subst hc
        exact absurd hchw (by decide)
      obtain ⟨p, hpm, hchp⟩ := splitParas_covers hchnl hchm
      have hg := paraLoop_good hml _ _ _ hpl (Or.inl ⟨p, hpm, ⟨ch, hchp, hchw⟩⟩)
      exact safetyPass_ne_nil (push_partsOk hg)

/-- C4 witness: concrete instance of `c4_amended`. -/
theorem c4_witness :
    chunkForTelegram "ab".data 1 = .ok ["a".data, "b".data] ∧
    ["a".data, "b".data] ≠ ([] : List Str) :=
  ⟨rfl, c4_amended "ab".data 1 ["a".data, "b".data] rfl
    (Or.inr (Or.inr ⟨by decide, 'a', by decide, by decide⟩))⟩

/-! ### Claim C10 -/

/-- C10: for every non-empty text with `text.length > maxLen` and
`maxLen ≥ 1`, every element of the sequence returned by
`chunkForTelegram` is a non-empty string: empty buffers are never
pushed at any packing level and hard-slice pieces are non-empty. -/
theorem c10_chunks_nonempty : ∀ (text : Str) (maxLen : Int) (res : List Str),
    text ≠ [] → maxLen < (text.length : Int) → 1 ≤ maxLen →
    chunkForTelegram text maxLen = .ok res →
    ∀ c ∈ res, c ≠ [] := by
  intro text maxLen res htne hover hml hres
  rcases chunkForTelegram_ok_dest hres with ⟨hres1, _⟩ | ⟨parts, buffer, hpl, hres1, _⟩
  · subst hres1
    intro c hc
    simp only [List.mem_singleton] at hc
    subst hc
    exact htne
  · subst hres1
    intro c hc
    refine safetyPass_elem_ne ?_ hc
    exact mem_push_ne (paraLoop_parts _ _ _ hpl (by simp))

/-- C10 witness: concrete instance of `c10_chunks_nonempty`. -/
theorem c10_witness :
    ("ab".data ≠ []) ∧ ((1 : Int) < ("ab".data.length : Int)) ∧
    ∀ c ∈ ["a".data, "b".data], c ≠ [] :=
  ⟨by decide, by decide,
    c10_chunks_nonempty "ab".data 1 ["a".data, "b".data] (by decide) (by decide)
      (by decide) rfl⟩

/-! ### Escaper claim theorems: concrete computations -/

/-- **C8** (counterexample): on the spec's concrete input
`'**bold** and _ital_ and # Heading'` the bold and italic spans are
converted and the other reserved characters escaped, but the heading is
NOT converted to a bold span: the `#` sits mid-line, the `/^…$/gm`
heading pattern only matches at a line start, so the output escapes it
as `\# Heading` and contains no `*Heading*` span. -/
theorem c8_counterexample :
    processMarkdownV2Safe urlModel "**bold** and _ital_ and # Heading".data
      = "*bold* and _ital_ and \\# Heading".data
    ∧ countSubstr "*Heading*".data
        (processMarkdownV2Safe urlModel "**bold** and _ital_ and # Heading".data) = 0 :=
  ⟨rfl, rfl⟩

/-- **C8** (amended): heading conversion is per line: the spec's
concrete input yields the heading escaped (not bolded), while the same
text with the heading on its own line converts it to a bold span. -/
theorem c8_amended :
    processMarkdownV2Safe urlModel "**bold** and _ital_ and # Heading".data
      = "*bold* and _ital_ and \\# Heading".data
    ∧ processMarkdownV2Safe urlModel "**bold** and _ital_ and\n# Heading".data
      = "*bold* and _ital_ and\n*Heading*".data :=
  ⟨rfl, rfl⟩

/-- **C9**: `processMarkdownV2Safe` is not idempotent: `'a.b'` becomes
`'a\.b'`, and a second application over-escapes both the backslash and
the dot, giving `'a\\\.b'` — a different string. -/
theorem c9_not_idempotent :
    processMarkdownV2Safe urlModel "a.b".data = "a\\.b".data
    ∧ processMarkdownV2Safe urlModel "a\\.b".data = "a\\\\\\.b".data
    ∧ processMarkdownV2Safe urlModel (processMarkdownV2Safe urlModel "a.b".data)
        ≠ processMarkdownV2Safe urlModel "a.b".data := by
  refine ⟨rfl, rfl, ?_⟩
  decide

/-- **C5** (counterexample): the input `'⟬B0⟭ *x*'` legitimately
contains the exact character sequence of the bold placeholder token, so
after extraction the escaped working text holds two occurrences of
`⟬B0⟭` and restoration replaces the user's literal token (the first
occurrence) instead of the inserted one: the output renders the forged
position as `*x*` and leaves the raw token behind. -/
theorem c5_counterexample :
    escapedWorking urlModel "⟬B0⟭ *x*".data = "⟬B0⟭ ⟬B0⟭".data
    ∧ countSubstr (mkTok 'B' 0) (escapedWorking urlModel "⟬B0⟭ *x*".data) = 2
    ∧ processMarkdownV2Safe urlModel "⟬B0⟭ *x*".data = "*x* ⟬B0⟭".data :=
  ⟨rfl, rfl, rfl⟩

/-- **C6** (counterexample): for the span `[a.b](not a url)` both URL
parses fail and the output is NOT "only the escaped label": the label
is escaped once by the replacement callback and then again by the
global escape pass, producing the doubly-escaped `a\\\.b` instead of
`a\.b`. -/
theorem c6_counterexample :
    processMarkdownV2Safe urlModel "[a.b](not a url)".data
      = escapeMarkdownV2 (escapeMarkdownV2 "a.b".data)
    ∧ escapeMarkdownV2 (escapeMarkdownV2 "a.b".data) ≠ escapeMarkdownV2 "a.b".data := by
  exact ⟨rfl, by decide⟩

/-- **C2** (counterexample): the input `[x⟬B0⟭](http://a.com) *$'*`
forges a bold placeholder inside a link label; restoration then splices
the bold replacement (whose `$'` is interpreted by the replace
substitution rules as "text after the match") into the link label,
leaving unescaped `]`, `(`, `)` and `.` outside any recognized span —
the output fails the reserved-character safety check. -/
theorem c2_counterexample :
    safeMdV2 (processMarkdownV2Safe urlModel "[x⟬B0⟭](http://a.com) *$'*".data) = false
    ∧ processMarkdownV2Safe urlModel "[x⟬B0⟭](http://a.com) *$'*".data
      = "[x*](http://a.com/) ⟬B0⟭*](http://a.com/) ⟬B0⟭".data :=
  ⟨rfl, rfl⟩

/-! ### Token distinctness and escape transparency (C5 amended) -/

theorem char_digit_toNat : ∀ m : Nat, m < 10 → (Char.ofNat (48 + m)).toNat = 48 + m := by
  intro m h
  interval_cases m <;> decide

theorem digitsGo_spec : ∀ (fuel n a : Nat), n < fuel →
    (digitsGo fuel n).foldl (fun a c => a * 10 + (c.toNat - 48)) a
      = a * 10 ^ (digitsGo fuel n).length + n := by
  intro fuel
  induction fuel with
  | zero => intro n a h; omega
  | succ f ih =>
    intro n a h
    by_cases h10 : n < 10
    · have he : digitsGo (f + 1) n = [Char.ofNat (48 + n)] := by
        rw [digitsGo]; simp [h10]
      rw [he]
      simp only [List.foldl_cons, List.foldl_nil, List.length_cons, List.length_nil]
      rw [char_digit_toNat n h10]
      rw [pow_one]
      omega
    · have he : digitsGo (f + 1) n = digitsGo f (n / 10) ++ [Char.ofNat (48 + n % 10)] := by
        rw [digitsGo]; simp [h10]
      have hd : n / 10 < f := by omega
      rw [he, List.foldl_append]
      simp only [List.foldl_cons, List.foldl_nil, List.length_append, List.length_cons,
        List.length_nil]
      rw [ih (n / 10) a hd]
      rw [char_digit_toNat (n % 10) (Nat.mod_lt _ (by norm_num))]
      rw [pow_succ]
      have hmod := Nat.div_add_mod n 10
      ring_nf
      omega

theorem natOfDigits_natDigits (n : Nat) : natOfDigits (natDigits n) = n := by
  unfold natOfDigits natDigits
  rw [digitsGo_spec (n + 1) n 0 (by omega)]
  simp

theorem natDigits_inj {i j : Nat} (h : natDigits i = natDigits j) : i = j := by
  have hi := natOfDigits_natDigits i
  rw [h, natOfDigits_natDigits] at hi
  omega

theorem mkTok_inj {c c' : Char} {i j : Nat} (h : mkTok c i = mkTok c' j) :
    c = c' ∧ i = j := by
  unfold mkTok at h
  injection h with h1 h2
  injection h2 with hc h3
  refine ⟨hc, ?_⟩
  have hd := (List.append_inj' h3 rfl).1
  exact natDigits_inj hd

theorem escapeMarkdownV2_mem_iff {c : Char} (hc : isReservedMd c = false) :
    ∀ s : Str, c ∈ escapeMarkdownV2 s ↔ c ∈ s := by
  intro s
  induction s with
  | nil => simp [escapeMarkdownV2]
  | cons a rest ih =>
    rw [escapeMarkdownV2]
    by_cases ha : isReservedMd a
    · simp only [ha, if_true, List.cons_append, List.nil_append, List.mem_cons, ih]
      constructor
      · rintro (h | h)
        · exfalso; rw [h] at hc; exact absurd hc (by decide)
        · exact h
      · exact fun h => Or.inr h
    · simp only [ha, Bool.false_eq_true, if_false, List.cons_append, List.nil_append,
        List.mem_cons, ih]

/-- **C5** (amended): restoration tokens are pairwise distinct
(`⟬<cat><i>⟭` determines the category and the index), and the escaping
step itself is transparent for the token bracket `⟬`: it never
introduces one that was not already in its input.  The full claim fails
because the INPUT may forge a token (see the counterexample); the
amendment is exactly the spec's invariant restricted to what the code
guarantees: distinct indices/categories give distinct tokens, and
escaping cannot manufacture a token bracket. -/
theorem c5_amended :
    (∀ (c : Char) (i : Nat) (c' : Char) (j : Nat), mkTok c i = mkTok c' j → c = c' ∧ i = j)
    ∧ (∀ s : Str, '⟬' ∈ escapeMarkdownV2 s ↔ '⟬' ∈ s) :=
  ⟨fun _ _ _ _ h => mkTok_inj h, fun s => escapeMarkdownV2_mem_iff (by decide) s⟩

/-- **C5** (witness): the amended theorem applied at the bold token
`⟬B0⟭` against itself and at a concrete string for transparency. -/
theorem c5_witness :
    ('B' = 'B' ∧ (0 : Nat) = 0) ∧ ('⟬' ∈ escapeMarkdownV2 "⟬a.b".data ↔ '⟬' ∈ "⟬a.b".data) :=
  ⟨c5_amended.1 'B' 0 'B' 0 rfl, c5_amended.2 "⟬a.b".data⟩

/-! ### Stage no-op lemmas and escape safety (C2 amended) -/

theorem dblGo_noop {d : Char} : ∀ s : Str, (∀ c ∈ s, c ≠ d) → dblGo d none s = s := by
  intro s
  induction s with
  | nil => intro h; rfl
  | cons c rest ih =>
    intro h
    have hc : c ≠ d := h c (by simp)
    cases rest with
    | nil => rfl
    | cons c2 rest2 =>
      rw [dblGo]
      rw [if_neg (by simp [hc])]
      rw [ih (fun x hx => h x (List.mem_cons_of_mem _ hx))]

theorem headGo_noop (s : Str) : ∀ b : Bool, (∀ c ∈ s, c ≠ '#') → headGo (.norm b) s = s := by
  induction s with
  | nil => intro b h; rfl
  | cons c rest ih =>
    intro b h
    have hc : c ≠ '#' := h c (by simp)
    rw [headGo]
    rw [if_neg (by simp [hc])]
    rw [ih (isLineTerm c) (fun x hx => h x (List.mem_cons_of_mem _ hx))]

theorem linkGo_noop (parse : Str → Option Str) :
    ∀ (s : Str) (idx : Nat), (∀ c ∈ s, c ≠ '[') → linkGo parse .norm idx s = (s, []) := by
  intro s
  induction s with
  | nil => intro idx h; rfl
  | cons c rest ih =>
    intro idx h
    have hc : c ≠ '[' := h c (by simp)
    rw [linkGo]
    rw [if_neg (by simp [hc])]
    rw [ih idx (fun x hx => h x (List.mem_cons_of_mem _ hx))]

theorem singleGo_noop (d letter : Char) :
    ∀ (s : Str) (idx : Nat), (∀ c ∈ s, c ≠ d) → singleGo d letter none idx s = (s, []) := by
  intro s
  induction s with
  | nil => intro idx h; rfl
  | cons c rest ih =>
    intro idx h
    have hc : c ≠ d := h c (by simp)
    rw [singleGo]
    rw [if_neg (by simp [hc])]
    rw [ih idx (fun x hx => h x (List.mem_cons_of_mem _ hx))]

theorem spoilGo_noop :
    ∀ (s : Str) (idx : Nat), (∀ c ∈ s, c ≠ '|') → spoilGo none idx s = (s, []) := by
  intro s
  induction s with
  | nil => intro idx h; rfl
  | cons c rest ih =>
    intro idx h
    have hc : c ≠ '|' := h c (by simp)
    cases rest with
    | nil => rw [spoilGo]
    | cons c2 rest2 =>
      rw [spoilGo]
      rw [if_neg (by simp [hc])]
      rw [ih idx (fun x hx => h x (List.mem_cons_of_mem _ hx))]

theorem safeGo_top_esc {c : Char} (h : isReservedMd c = true) (s : Str) :
    safeGo .top ('\\' :: c :: s) = safeGo .top s := by
  rw [safeGo.eq_def]
  simp [h]

theorem safeGo_top_plain {c : Char} (h : isReservedMd c = false) (s : Str) :
    safeGo .top (c :: s) = safeGo .top s := by
  have h1 : c ≠ '\\' := by intro he; rw [he] at h; exact absurd h (by decide)
  have h2 : c ≠ '*' := by intro he; rw [he] at h; exact absurd h (by decide)
  have h3 : c ≠ '_' := by intro he; rw [he] at h; exact absurd h (by decide)
  have h4 : c ≠ '|' := by intro he; rw [he] at h; exact absurd h (by decide)
  have h5 : c ≠ '[' := by intro he; rw [he] at h; exact absurd h (by decide)
  rw [safeGo.eq_def]
  simp [h1, h2, h3, h4, h5, h]

theorem safeGo_escape : ∀ s : Str, safeGo .top (escapeMarkdownV2 s) = true := by
  intro s
  induction s with
  | nil => rfl
  | cons c rest ih =>
    rw [escapeMarkdownV2]
    by_cases hr : isReservedMd c
    · simp only [hr, if_true, List.cons_append, List.nil_append]
      rw [safeGo_top_esc hr]
      exact ih
    · simp only [hr, Bool.false_eq_true, if_false, List.cons_append, List.nil_append]
      rw [safeGo_top_plain (by simpa using hr : isReservedMd c = false)]
      exact ih

theorem extractStages_plain (parse : Str → Option Str) (input : Str)
    (h : ∀ c ∈ input, c ≠ '*' ∧ c ≠ '_' ∧ c ≠ '|' ∧ c ≠ '[' ∧ c ≠ '#') :
    extractStages parse input = (input, [], [], [], []) := by
  have h1 : normalizeCommonMd input = input := by
    unfold normalizeCommonMd
    rw [dblGo_noop input (fun c hc => (h c hc).1)]
    rw [dblGo_noop input (fun c hc => (h c hc).2.1)]
  have h2 : normalizeHeadings input = input :=
    headGo_noop input true (fun c hc => (h c hc).2.2.2.2)
  have hL := linkGo_noop parse input 0 (fun c hc => (h c hc).2.2.2.1)
  have hB := singleGo_noop '*' 'B' input 0 (fun c hc => (h c hc).1)
  have hI := singleGo_noop '_' 'I' input 0 (fun c hc => (h c hc).2.1)
  have hS := spoilGo_noop input 0 (fun c hc => (h c hc).2.2.1)
  simp [extractStages, h1, h2, hL, hB, hI, hS]

theorem process_plain (parse : Str → Option Str) (input : Str)
    (h : ∀ c ∈ input, c ≠ '*' ∧ c ≠ '_' ∧ c ≠ '|' ∧ c ≠ '[' ∧ c ≠ '#') :
    processMarkdownV2Safe parse input = escapeMarkdownV2 input := by
  unfold processMarkdownV2Safe
  by_cases hemp : input.isEmpty
  · rw [List.isEmpty_iff] at hemp
    simp [hemp, escapeMarkdownV2]
  · rw [extractStages_plain parse input h]
    simp [hemp, restoreGo]

/-- **C2** (amended): for every input containing none of the markup
trigger characters `*`, `_`, `|`, `[`, `#`, the extraction stages are
no-ops, the output is exactly `escapeMarkdownV2 input`, and it passes
the reserved-character safety check: every reserved character appears
backslash-escaped.  (The unrestricted claim fails: forged placeholder
tokens plus replacement `$`-substitution can smuggle unescaped reserved
characters into the output — see the counterexample.) -/
theorem c2_amended (parse : Str → Option Str) (input : Str)
    (h : ∀ c ∈ input, c ≠ '*' ∧ c ≠ '_' ∧ c ≠ '|' ∧ c ≠ '[' ∧ c ≠ '#') :
    safeMdV2 (processMarkdownV2Safe parse input) = true := by
  rw [process_plain parse input h]
  exact safeGo_escape input

/-- **C2** (witness): the amended safety theorem at a concrete
reserved-character-laden plain text. -/
theorem c2_witness :
    safeMdV2 (processMarkdownV2Safe urlModel "a.b (c) !\\d".data) = true :=
  c2_amended urlModel "a.b (c) !\\d".data (by decide)

/-! ### Isolated link spans (C6 amended) -/

theorem mem_escape {c : Char} : ∀ s : Str, c ∈ escapeMarkdownV2 s → c ∈ s ∨ c = '\\' := by
  intro s
  induction s with
  | nil => intro h; simp [escapeMarkdownV2] at h
  | cons a rest ih =>
    intro h
    rw [escapeMarkdownV2] at h
    by_cases ha : isReservedMd a
    · simp only [ha, if_true, List.cons_append, List.nil_append, List.mem_cons] at h
      rcases h with h | h | h
      · exact Or.inr h
      · exact Or.inl (by simp [h])
      · rcases ih h with h' | h'
        · exact Or.inl (List.mem_cons_of_mem _ h')
        · exact Or.inr h'
    · simp only [ha, Bool.false_eq_true, if_false, List.cons_append, List.nil_append,
        List.mem_cons] at h
      rcases h with h | h
      · exact Or.inl (by simp [h])
      · rcases ih h with h' | h'
        · exact Or.inl (List.mem_cons_of_mem _ h')
        · exact Or.inr h'

theorem mem_escapeForUrl {c : Char} : ∀ s : Str, c ∈ escapeForUrl s → c ∈ s ∨ c = '\\' := by
  intro s
  induction s with
  | nil => intro h; simp [escapeForUrl] at h
  | cons a rest ih =>
    intro h
    rw [escapeForUrl] at h
    by_cases ha : (a.toNat = 41 || a.toNat = 92) = true
    · simp only [ha, if_true, List.cons_append, List.nil_append, List.mem_cons] at h
      rcases h with h | h | h
      · exact Or.inr h
      · exact Or.inl (by simp [h])
      · rcases ih h with h' | h'
        · exact Or.inl (List.mem_cons_of_mem _ h')
        · exact Or.inr h'
    · simp only [ha, Bool.false_eq_true, if_false, List.cons_append, List.nil_append,
        List.mem_cons] at h
      rcases h with h | h
      · exact Or.inl (by simp [h])
      · rcases ih h with h' | h'
        · exact Or.inl (List.mem_cons_of_mem _ h')
        · exact Or.inr h'

theorem getSubst_noop (m pre post : Str) :
    ∀ repl : Str, (∀ c ∈ repl, c ≠ '$') → getSubst m pre post repl = repl := by
  intro repl
  induction repl with
  | nil => intro h; rfl
  | cons c rest ih =>
    intro h
    have hc : c ≠ '$' := h c (by simp)
    cases rest with
    | nil => rfl
    | cons c2 r2 =>
      rw [getSubst]
      rw [if_neg hc]
      rw [ih (fun x hx => h x (List.mem_cons_of_mem _ hx))]

theorem isPrefixOf_self : ∀ l : Str, l.isPrefixOf l = true := by
  intro l
  induction l with
  | nil => rfl
  | cons c rest ih => simp [List.isPrefixOf, ih]

theorem replaceFirst_self (tok repl : Str) (h : tok ≠ []) :
    replaceFirst tok repl tok = getSubst tok [] [] repl := by
  obtain ⟨c, rest, rfl⟩ : ∃ c rest, tok = c :: rest := by
    cases tok with
    | nil => exact absurd rfl h
    | cons c rest => exact ⟨c, rest, rfl⟩
  unfold replaceFirst
  rw [replFirstAux]
  rw [if_pos (isPrefixOf_self _)]
  simp [List.drop_length]

theorem headGo_noLT : ∀ s : Str, (∀ c ∈ s, isLineTerm c = false) → headGo (.norm false) s = s := by
  intro s
  induction s with
  | nil => intro h; rfl
  | cons c rest ih =>
    intro h
    rw [headGo]
    rw [if_neg (by simp)]
    rw [h c (by simp)]
    rw [ih (fun x hx => h x (List.mem_cons_of_mem _ hx))]

theorem linkGo_lab (parse : Str → Option Str) :
    ∀ (lab : Str) (acc : Str) (idx : Nat) (s : Str), (∀ c ∈ lab, c ≠ ']' ∧ c ≠ '\n') →
      linkGo parse (.lab acc) idx (lab ++ s) = linkGo parse (.lab (lab.reverse ++ acc)) idx s := by
  intro lab
  induction lab with
  | nil => intro acc idx s h; simp
  | cons c lrest ih =>
    intro acc idx s h
    have hc1 : c ≠ ']' := (h c (by simp)).1
    have hc2 : c ≠ '\n' := (h c (by simp)).2
    rw [List.cons_append, linkGo]
    rw [if_neg hc1, if_neg hc2]
    rw [ih (c :: acc) idx s (fun x hx => h x (List.mem_cons_of_mem _ hx))]
    simp

theorem linkGo_url (parse : Str → Option Str) (lacc : Str) :
    ∀ (u : Str) (uacc : Str) (idx : Nat) (s : Str), (∀ c ∈ u, c ≠ ')') →
      linkGo parse (.url lacc uacc) idx (u ++ s)
        = linkGo parse (.url lacc (u.reverse ++ uacc)) idx s := by
  intro u
  induction u with
  | nil => intro uacc idx s h; simp
  | cons c urest ih =>
    intro uacc idx s h
    have hc : c ≠ ')' := h c (by simp)
    rw [List.cons_append, linkGo]
    rw [if_neg hc]
    rw [ih (c :: uacc) idx s (fun x hx => h x (List.mem_cons_of_mem _ hx))]
    simp

theorem linkGo_span (parse : Str → Option Str) (label url : Str) (hlab : label ≠ [])
    (hl : ∀ c ∈ label, c ≠ ']' ∧ c ≠ '\n') (hurl : url ≠ [])
    (hu : ∀ c ∈ url, c ≠ ')') :
    linkGo parse .norm 0 ('[' :: (label ++ ']' :: '(' :: (url ++ [')'])))
      = match normalizeAndValidateUrl parse url with
        | none => (escapeMarkdownV2 label, [])
        | some u => (mkTok 'L' 0,
            ['[' :: (escapeMarkdownV2 label ++ ']' :: '(' :: (escapeForUrl u ++ [')']))]) := by
  rw [linkGo]
  rw [if_pos rfl]
  rw [linkGo_lab parse label [] 0 _ hl]
  rw [List.append_nil]
  rw [linkGo]
  rw [if_pos rfl]
  rw [if_neg (by simpa [List.isEmpty_iff, List.reverse_eq_nil_iff] using hlab)]
  rw [linkGo]
  rw [if_pos rfl]
  rw [linkGo_url parse label.reverse url [] 0 _ hu]
  rw [List.append_nil]
  rw [linkGo]
  rw [if_pos rfl]
  rw [if_neg (by simpa [List.isEmpty_iff, List.reverse_eq_nil_iff] using hurl)]
  rw [List.reverse_reverse]
  cases hres : normalizeAndValidateUrl parse url with
  | none =>
      rw [show linkGo parse LinkMode.norm 0 ([] : Str) = ([], []) from rfl]
      simp
  | some u =>
      rw [show linkGo parse LinkMode.norm 1 ([] : Str) = ([], []) from rfl]
      simp

theorem extractStages_span (parse : Str → Option Str) (label url : Str)
    (hlab : label ≠ [])
    (hl : ∀ c ∈ label, c ≠ ']' ∧ isLineTerm c = false ∧ c ≠ '*' ∧ c ≠ '_' ∧ c ≠ '|')
    (hurl : url ≠ [])
    (hu : ∀ c ∈ url, c ≠ ')' ∧ isLineTerm c = false ∧ c ≠ '*' ∧ c ≠ '_' ∧ c ≠ '|') :
    extractStages parse ('[' :: (label ++ ']' :: '(' :: (url ++ [')'])))
      = match normalizeAndValidateUrl parse url with
        | none => (escapeMarkdownV2 label, [], [], [], [])
        | some u => (mkTok 'L' 0,
            ['[' :: (escapeMarkdownV2 label ++ ']' :: '(' :: (escapeForUrl u ++ [')']))],
            [], [], []) := by
  have hmem : ∀ c ∈ ('[' :: (label ++ ']' :: '(' :: (url ++ [')']))),
      c = '[' ∨ c ∈ label ∨ c = ']' ∨ c = '(' ∨ c ∈ url ∨ c = ')' := by
    intro c hc
    simp only [List.mem_cons, List.mem_append, List.mem_singleton] at hc
    tauto
  have hstar : ∀ c ∈ ('[' :: (label ++ ']' :: '(' :: (url ++ [')']))), c ≠ '*' := by
    intro c hc
    rcases hmem c hc with h | h | h | h | h | h
    · rw [h]; decide
    · exact (hl c h).2.2.1
    · rw [h]; decide
    · rw [h]; decide
    · exact (hu c h).2.2.1
    · rw [h]; decide
  have hund : ∀ c ∈ ('[' :: (label ++ ']' :: '(' :: (url ++ [')']))), c ≠ '_' := by
    intro c hc
    rcases hmem c hc with h | h | h | h | h | h
    · rw [h]; decide
    · exact (hl c h).2.2.2.1
    · rw [h]; decide
    · rw [h]; decide
    · exact (hu c h).2.2.2.1
    · rw [h]; decide
  have h1 : normalizeCommonMd ('[' :: (label ++ ']' :: '(' :: (url ++ [')'])))
      = '[' :: (label ++ ']' :: '(' :: (url ++ [')'])) := by
    unfold normalizeCommonMd
    rw [dblGo_noop _ hstar, dblGo_noop _ hund]
  have hnoLT : ∀ c ∈ (label ++ ']' :: '(' :: (url ++ [')'])), isLineTerm c = false := by
    intro c hc
    simp only [List.mem_append, List.mem_cons, List.mem_singleton, List.not_mem_nil,
      or_false] at hc
    rcases hc with h | h | h | h | h
    · exact (hl c h).2.1
    · rw [h]; decide
    · rw [h]; decide
    · exact (hu c h).2.1
    · rw [h]; decide
  have h2 : normalizeHeadings ('[' :: (label ++ ']' :: '(' :: (url ++ [')'])))
      = '[' :: (label ++ ']' :: '(' :: (url ++ [')'])) := by
    unfold normalizeHeadings
    rw [headGo]
    rw [if_neg (by simp)]
    rw [show isLineTerm '[' = false from by decide]
    rw [headGo_noLT _ hnoLT]
  have hlink := linkGo_span parse label url hlab
    (fun c hc => ⟨(hl c hc).1, fun he => by
      have := (hl c hc).2.1
      rw [he] at this
      exact absurd this (by decide)⟩) hurl (fun c hc => (hu c hc).1)
  have labstar : ∀ c ∈ escapeMarkdownV2 label, c ≠ '*' := by
    intro c hc
    rcases mem_escape label hc with h' | h'
    · exact (hl c h').2.2.1
    · rw [h']; decide
  have labund : ∀ c ∈ escapeMarkdownV2 label, c ≠ '_' := by
    intro c hc
    rcases mem_escape label hc with h' | h'
    · exact (hl c h').2.2.2.1
    · rw [h']; decide
  have labpipe : ∀ c ∈ escapeMarkdownV2 label, c ≠ '|' := by
    intro c hc
    rcases mem_escape label hc with h' | h'
    · exact (hl c h').2.2.2.2
    · rw [h']; decide
  cases hres : normalizeAndValidateUrl parse url with
  | none =>
      rw [hres] at hlink
      simp only at hlink
      have hB := singleGo_noop '*' 'B' (escapeMarkdownV2 label) 0 labstar
      have hI := singleGo_noop '_' 'I' (escapeMarkdownV2 label) 0 labund
      have hS := spoilGo_noop (escapeMarkdownV2 label) 0 labpipe
      simp [extractStages, h1, h2, hlink, hB, hI, hS]
  | some u =>
      rw [hres] at hlink
      simp only at hlink
      have hB := singleGo_noop '*' 'B' (mkTok 'L' 0) 0 (by decide)
      have hI := singleGo_noop '_' 'I' (mkTok 'L' 0) 0 (by decide)
      have hS := spoilGo_noop (mkTok 'L' 0) 0 (by decide)
      simp [extractStages, h1, h2, hlink, hB, hI, hS]

/-- **C6** (amended): for an isolated span `[label](url)` whose label
and url avoid the other markup triggers (`*`, `_`, `|`), line
terminators, `]`/`)` respectively, and (for the label) `$`: when both
URL parses fail, the output is the DOUBLY-escaped label (the callback
escapes it once, the global pass escapes it again) with no link syntax
and no error; when the URL validates to `u` (containing no `$`), the
output is exactly the reconstructed span `[escaped-label](url-escaped
u)`.  The original claim's "output contains only the escaped label" is
corrected to the doubly-escaped label. -/
theorem c6_amended (parse : Str → Option Str) (label url : Str)
    (hlab : label ≠ [])
    (hl : ∀ c ∈ label,
      c ≠ ']' ∧ isLineTerm c = false ∧ c ≠ '*' ∧ c ≠ '_' ∧ c ≠ '|' ∧ c ≠ '$')
    (hurl : url ≠ [])
    (hu : ∀ c ∈ url, c ≠ ')' ∧ isLineTerm c = false ∧ c ≠ '*' ∧ c ≠ '_' ∧ c ≠ '|') :
    (normalizeAndValidateUrl parse url = none →
      processMarkdownV2Safe parse ('[' :: (label ++ ']' :: '(' :: (url ++ [')'])))
        = escapeMarkdownV2 (escapeMarkdownV2 label))
    ∧ (∀ u, normalizeAndValidateUrl parse url = some u → (∀ c ∈ u, c ≠ '$') →
      processMarkdownV2Safe parse ('[' :: (label ++ ']' :: '(' :: (url ++ [')'])))
        = '[' :: (escapeMarkdownV2 label ++ ']' :: '(' :: (escapeForUrl u ++ [')']))) := by
  have hl5 : ∀ c ∈ label, c ≠ ']' ∧ isLineTerm c = false ∧ c ≠ '*' ∧ c ≠ '_' ∧ c ≠ '|' :=
    fun c hc => ⟨(hl c hc).1, (hl c hc).2.1, (hl c hc).2.2.1, (hl c hc).2.2.2.1,
      (hl c hc).2.2.2.2.1⟩
  have hext := extractStages_span parse label url hlab hl5 hurl hu
  constructor
  · intro hres
    rw [hres] at hext
    simp only at hext
    unfold processMarkdownV2Safe
    rw [if_neg (by simp)]
    rw [hext]
    simp [restoreGo]
  · intro u hres hu2
    rw [hres] at hext
    simp only at hext
    unfold processMarkdownV2Safe
    rw [if_neg (by simp)]
    rw [hext]
    have hfrag : ∀ c ∈ ('[' :: (escapeMarkdownV2 label ++ ']' :: '(' ::
        (escapeForUrl u ++ [')']))), c ≠ '$' := by
      intro c hc
      simp only [List.mem_cons, List.mem_append, List.mem_singleton, List.not_mem_nil,
        or_false] at hc
      rcases hc with h | h | h | h | h | h
      · rw [h]; decide
      · rcases mem_escape label h with h' | h'
        · exact (hl c h').2.2.2.2.2
        · rw [h']; decide
      · rw [h]; decide
      · rw [h]; decide
      · rcases mem_escapeForUrl u h with h' | h'
        · exact hu2 c h'
        · rw [h']; decide
      · rw [h]; decide
    simp only [restoreGo]
    rw [show escapeMarkdownV2 (mkTok 'L' 0) = mkTok 'L' 0 from by decide]
    rw [replaceFirst_self (mkTok 'L' 0) _ (by decide)]
    rw [getSubst_noop _ _ _ _ hfrag]

/-- **C6** (witness): the amended theorem at concrete spans — a failing
URL (`nourl`) giving the doubly-escaped label, and a validating URL
(`http://a.com`, normalized with trailing slash under the modelled
platform parser) giving the reconstructed link. -/
theorem c6_witness :
    processMarkdownV2Safe urlModel "[a.b](nourl)".data
      = escapeMarkdownV2 (escapeMarkdownV2 "a.b".data)
    ∧ processMarkdownV2Safe urlModel "[lbl](http://a.com)".data
      = '[' :: (escapeMarkdownV2 "lbl".data ++ ']' :: '(' ::
          (escapeForUrl "http://a.com/".data ++ [')'])) :=
  ⟨(c6_amended urlModel "a.b".data "nourl".data (by decide) (by decide) (by decide)
      (by decide)).1 rfl,
   (c6_amended urlModel "lbl".data "http://a.com".data (by decide) (by decide) (by decide)
      (by decide)).2 "http://a.com/".data rfl (by decide)⟩
